import Mathlib

/-!
Shallow embedding of the propositional reasoning engine of
`src/Kingdom of Heaven/existential_tautological_generator_etg_v_0.jsx`
(Existential Tautological Generator, ETG v0.1), together with proofs about it.

JavaScript features are modelled as follows:
* thrown exceptions (`throw new Error(...)`) become `none` in an `Option` result;
* the mutable id counter of `layoutAST` becomes explicit state passing;
* JS `Set` insertion-order semantics become an accumulated list of seen elements;
* JS 32-bit semantics of `<<` (the `1<<n` expressions of `allAssignments`) are
  modelled explicitly via `toInt32`;
* the IEEE-754 doubles of the layout code are modelled as exact rationals;
* the tokenizer and the recursive-descent parser are given explicit fuel so that
  they are structurally recursive (and hence computable by the kernel); the fuel
  supplied at the entry points dominates the recursion depth of the source
  functions, which always consume at least one token (resp. character) per
  two recursion levels.
-/

namespace ETG

/-- AST of propositional formulas (source lines 31–34): five node kinds. -/
inductive AST : Type where
  | var (name : String)
  | not (value : AST)
  | and (left right : AST)
  | or (left right : AST)
  | imp (left right : AST)
  | iff (left right : AST)
  deriving DecidableEq, Repr

/-- Source line 36: `const isLetter = (ch) => /[A-Za-z]/.test(ch)` (ASCII letters). -/
def isLetter (c : Char) : Bool := ('A' ≤ c && c ≤ 'Z') || ('a' ≤ c && c ≤ 'z')

/-- Source line 37: `const isIdentChar = (ch) => /[A-Za-z0-9_]/.test(ch)`. -/
def isIdentChar (c : Char) : Bool := isLetter c || c.isDigit || c == '_'

/-- Source lines 39–67, `tokenize`: one step per input character with explicit
fuel (the source's `while (i < src.length)` loop; each iteration consumes at
least one character, so fuel `length + 1` suffices, see `tokenizeL`).
The character dispatch mirrors the source's if-chain: the checked character
sets are pairwise disjoint, so an ordered match is equivalent.  A `-`, `<` or
`←` that does not begin `->`, `<->`, `←→` falls through to the identifier test
and fails there, exactly as in the source (which then throws). -/
def tokenizeF : Nat → List Char → Option (List String)
  | 0, _ => none
  | _+1, [] => some []
  | f+1, ' ' :: cs => tokenizeF f cs
  | f+1, '\n' :: cs => tokenizeF f cs
  | f+1, '\t' :: cs => tokenizeF f cs
  | f+1, '→' :: cs => (fun ts => "->" :: ts) <$> tokenizeF f cs
  | f+1, '↔' :: cs => (fun ts => "<->" :: ts) <$> tokenizeF f cs
  | f+1, '≡' :: cs => (fun ts => "<->" :: ts) <$> tokenizeF f cs
  | f+1, '¬' :: cs => (fun ts => "!" :: ts) <$> tokenizeF f cs
  | f+1, '~' :: cs => (fun ts => "!" :: ts) <$> tokenizeF f cs
  | f+1, '!' :: cs => (fun ts => "!" :: ts) <$> tokenizeF f cs
  | f+1, '∧' :: cs => (fun ts => "&" :: ts) <$> tokenizeF f cs
  | f+1, '&' :: cs => (fun ts => "&" :: ts) <$> tokenizeF f cs
  | f+1, '∨' :: cs => (fun ts => "|" :: ts) <$> tokenizeF f cs
  | f+1, '|' :: cs => (fun ts => "|" :: ts) <$> tokenizeF f cs
  | f+1, '(' :: cs => (fun ts => "(" :: ts) <$> tokenizeF f cs
  | f+1, ')' :: cs => (fun ts => ")" :: ts) <$> tokenizeF f cs
  | f+1, '-' :: '>' :: cs => (fun ts => "->" :: ts) <$> tokenizeF f cs
  | f+1, '<' :: '-' :: '>' :: cs => (fun ts => "<->" :: ts) <$> tokenizeF f cs
  | f+1, '←' :: '→' :: cs => (fun ts => "<->" :: ts) <$> tokenizeF f cs
  | f+1, c :: cs =>
    if isLetter c then
      (fun ts => String.mk (c :: cs.takeWhile isIdentChar) :: ts) <$>
        tokenizeF f (cs.dropWhile isIdentChar)
    else none

/-- `tokenize` on a character list, with sufficient fuel. -/
def tokenizeL (l : List Char) : Option (List String) := tokenizeF (l.length + 1) l

/-- Source `tokenize` on a string; `none` models the thrown lex error. -/
def tokenize (s : String) : Option (List String) := tokenizeL s.data

/-- Source line 70: `const PREC = { "!": 4, "&": 3, "|": 2, "->": 1, "<->": 0 }`;
`none` models `!(op in PREC)`. -/
def precOf (t : String) : Option Nat :=
  if t = "!" then some 4
  else if t = "&" then some 3
  else if t = "|" then some 2
  else if t = "->" then some 1
  else if t = "<->" then some 0
  else none

/-- The `switch (op)` of source lines 100–106 building a binary node;
`none` models the `default: throw` branch (reached e.g. for `op = "!"`). -/
def mkBin (op : String) (l r : AST) : Option AST :=
  if op = "&" then some (AST.and l r)
  else if op = "|" then some (AST.or l r)
  else if op = "->" then some (AST.imp l r)
  else if op = "<->" then some (AST.iff l r)
  else none

/-- `/^[A-Za-z]/.test(t)` of source line 87. -/
def headIsLetter (t : String) : Bool :=
  match t.data with
  | [] => false
  | c :: _ => isLetter c

/-- The three mutually recursive pieces of the parser of source lines 82–109:
`parseAtom`, `parseExpr` (atom part), and the `while (true)` loop of
`parseExpr`.  They are merged into one fuel-indexed function so the recursion
is structural (on the fuel). -/
inductive PMode : Type where
  | atom : PMode
  | expr (minPrec : Nat) : PMode
  | loop (minPrec : Nat) (left : AST) : PMode
  deriving Repr

/-- Source lines 82–109.  `.atom` is `parseAtom`; `.expr minPrec` is
`parseExpr(minPrec)`; `.loop minPrec left` is the state of `parseExpr`'s
`while` loop with accumulated `left`.  Results pair the parsed AST with the
remaining tokens (the source's index `i`); `none` models a thrown parse
error.  Note the faithful `prec + (op = "!" ? 0 : 1)` on the right-hand
recursive call (line 99) and that `mkBin` fails on `"!"` exactly like the
`default: throw` of line 105. -/
def parseRun : Nat → PMode → List String → Option (AST × List String)
  | 0, _, _ => none
  | _+1, .atom, [] => none
  | f+1, .atom, t :: rest =>
    if t = "(" then
      match parseRun f (.expr 0) rest with
      | some (e, ")" :: rest2) => some (e, rest2)
      | _ => none
    else if t = "!" then
      match parseRun f .atom rest with
      | some (e, rest2) => some (AST.not e, rest2)
      | none => none
    else if headIsLetter t then some (AST.var t, rest)
    else none
  | f+1, .expr minPrec, ts =>
    match parseRun f .atom ts with
    | some (left, rest) => parseRun f (.loop minPrec left) rest
    | none => none
  | _+1, .loop _ left, [] => some (left, [])
  | f+1, .loop minPrec left, op :: rest =>
    match precOf op with
    | none => some (left, op :: rest)
    | some prec =>
      if prec < minPrec then some (left, op :: rest)
      else
        match parseRun f (.expr (prec + (if op = "!" then 0 else 1))) rest with
        | some (right, rest2) =>
          match mkBin op left right with
          | some node => parseRun f (.loop minPrec node) rest2
          | none => none
        | none => none

/-- Source lines 72–114 `parseFormula`: tokenize, parse an expression at
minimum precedence 0, and require that all tokens were consumed (line 112).
The fuel `2 * tokens.length + 2` dominates the source parser's recursion
depth: every two nested calls consume at least one token. -/
def parseFormula (src : String) : Option AST :=
  match tokenize src with
  | none => none
  | some tokens =>
    match parseRun (2 * tokens.length + 2) (.expr 0) tokens with
    | some (ast, []) => some ast
    | _ => none

/-- A JS object used as a string-keyed boolean record (source `env`),
modelled as an association list; keys are unique in every use below. -/
abbrev Env : Type := List (String × Bool)

/-- Source line 129: `!!env[ast.name]` — a missing key reads as `false`. -/
def lookupEnv (env : Env) (n : String) : Bool :=
  match env.find? (fun p => p.1 == n) with
  | some p => p.2
  | none => false

/-- Source lines 127–136 `evalAST`: structural recursion, one case per kind. -/
def evalAST : AST → Env → Bool
  | .var n, env => lookupEnv env n
  | .not v, env => !evalAST v env
  | .and l r, env => evalAST l env && evalAST r env
  | .or l r, env => evalAST l env || evalAST r env
  | .imp l r, env => !evalAST l env || evalAST r env
  | .iff l r, env => evalAST l env == evalAST r env

/-- Source lines 118–125 `collectVars`: a JS `Set` accumulates names in
first-visit order; modelled as a list to which unseen names are appended. -/
def collectVarsAcc : AST → List String → List String
  | .var n, acc => if n ∈ acc then acc else acc ++ [n]
  | .not v, acc => collectVarsAcc v acc
  | .and l r, acc => collectVarsAcc r (collectVarsAcc l acc)
  | .or l r, acc => collectVarsAcc r (collectVarsAcc l acc)
  | .imp l r, acc => collectVarsAcc r (collectVarsAcc l acc)
  | .iff l r, acc => collectVarsAcc r (collectVarsAcc l acc)

/-- `Array.from(collectVars(ast))`: the set's insertion-ordered member list. -/
def collectVarsRaw (a : AST) : List String := collectVarsAcc a []

/-- Strict lexicographic order on character lists. -/
def charListLt : List Char → List Char → Bool
  | [], [] => false
  | [], _ :: _ => true
  | _ :: _, [] => false
  | c :: cs, d :: ds => if c < d then true else if d < c then false else charListLt cs ds

/-- The string order used by the default JS `Array.sort()` comparator:
lexicographic comparison (JS compares UTF-16 code units; the names compared
here are ASCII identifiers, on which that agrees with code-point order). -/
def strLt (a b : String) : Bool := charListLt a.data b.data

/-- Stable insertion of a string into a sorted list: scan past strictly
smaller strings, insert before the first one not smaller. -/
def insertStr (x : String) : List String → List String
  | [] => [x]
  | y :: ys => if strLt y x then y :: insertStr x ys else x :: y :: ys

/-- `Array.prototype.sort()` with the default string comparator, modelled as a
stable insertion sort (the result of a stable sort is unique, and the lists
sorted here have pairwise distinct elements anyway). -/
def sortStr : List String → List String
  | [] => []
  | x :: xs => insertStr x (sortStr xs)

/-- Source line 150: `Array.from(collectVars(ast)).sort()`. -/
def varsOf (a : AST) : List String := sortStr (collectVarsRaw a)

/-- JS `ToInt32`: interpret an integer modulo `2^32` as a signed 32-bit value. -/
def toInt32 (n : Int) : Int := (n + 2^31) % 2^32 - 2^31

/-- JS `1 << k`: the shift count is masked to 5 bits and the result is a signed
32-bit integer; in particular `1 << 31 = -2^31` and `1 << 32 = 1`. -/
def jsShl1 (k : Nat) : Int := toInt32 (2 ^ (k % 32))

/-- Source lines 138–147 `allAssignments`: for `m` from `0` while `m < (1<<n)`,
build the record `env[vars[i]] = !!(m & (1 << (n-1-i)))`.  Both shifts carry
JS 32-bit semantics (`jsShl1`).  Within the loop `m < 2^31`, so the bit test
agrees with `Nat.land` on the `toNat` of the (possibly negative) mask: a
negative mask `-2^31` has only bit 31 set, which is 0 in every reachable `m`,
and its `toNat` is 0. -/
def allAssignments (vars : List String) : List Env :=
  let n := vars.length
  (List.range (jsShl1 n).toNat).map fun m =>
    (List.range n).map fun i =>
      (vars.getD i "", decide (Nat.land m (jsShl1 (n - 1 - i)).toNat ≠ 0))

/-- Result record of `isTautology` (source line 149). -/
structure TautResult : Type where
  tautology : Bool
  falsifying : List Env
  deriving DecidableEq, Repr

/-- Source lines 149–157 `isTautology`: sort the variables, enumerate the
assignment rows, collect the falsifying ones in order, and report
`tautology = (falsifying.length === 0)`. -/
def isTautology (a : AST) : TautResult :=
  let vars := varsOf a
  let rows := allAssignments vars
  let falsifying := rows.filter fun env => !evalAST a env
  ⟨decide (falsifying.length = 0), falsifying⟩

/-- Source lines 170–176, the canonical `key` of the generator: `name` for a
variable, `(!k)` for a negation, `(k₁<kind>k₂)` for a binary node, where
`<kind>` is the kind tag `and` / `or` / `imp` / `iff`. -/
def key : AST → String
  | .var n => n
  | .not v => "(!" ++ key v ++ ")"
  | .and l r => "(" ++ key l ++ "and" ++ key r ++ ")"
  | .or l r => "(" ++ key l ++ "or" ++ key r ++ ")"
  | .imp l r => "(" ++ key l ++ "imp" ++ key r ++ ")"
  | .iff l r => "(" ++ key l ++ "iff" ++ key r ++ ")"

/-- Source lines 178–189, `build(d)`: depth-0 candidates are the atoms; the
depth-`d` list applies `not` to every element of `build(d-1)` and every one of
the four binary connectives (in source order `and, or, imp, iff`, source line
161) to every ordered pair from `build(d-1) × build(d-1)`. -/
def build (atoms : List String) : Nat → List AST
  | 0 => atoms.map AST.var
  | d+1 =>
    let sub := build atoms d
    sub.map AST.not ++
      sub.flatMap fun a => sub.flatMap fun b =>
        [AST.and a b, AST.or a b, AST.imp a b, AST.iff a b]

/-- The `seen`-set filter of `add` (source line 177): keep the first candidate
with each canonical `key`, threading the set of seen keys. -/
def dedupKey : List AST → List String → List AST
  | [], _ => []
  | n :: ns, seen =>
    if key n ∈ seen then dedupKey ns seen
    else n :: dedupKey ns (key n :: seen)

/-- Source lines 167–192 `genFormulas`: for `d` from 0 to `maxDepth`, `add`
every element of `build(d)`, deduplicating by canonical key across all
depths. -/
def genFormulas (maxDepth : Nat) (atoms : List String) : List AST :=
  dedupKey ((List.range (maxDepth + 1)).flatMap (build atoms)) []

/-- Source lines 194–203 `astToInfix`: the printed canonical form, with Unicode
glyphs, `¬(...)` around every negated subformula and `(...)` around every
binary subformula. -/
def astToText : AST → String
  | .var n => n
  | .not v => "¬(" ++ astToText v ++ ")"
  | .and l r => "(" ++ astToText l ++ " ∧ " ++ astToText r ++ ")"
  | .or l r => "(" ++ astToText l ++ " ∨ " ++ astToText r ++ ")"
  | .imp l r => "(" ++ astToText l ++ " → " ++ astToText r ++ ")"
  | .iff l r => "(" ++ astToText l ++ " ↔ " ++ astToText r ++ ")"

/-- Source line 213, `size`: the leaf count of a subtree. -/
def size : AST → Nat
  | .var _ => 1
  | .not v => size v
  | .and l r => size l + size r
  | .or l r => size l + size r
  | .imp l r => size l + size r
  | .iff l r => size l + size r

/-- Source line 213 again, for stating depth claims: number of AST nodes. -/
def nodeCount : AST → Nat
  | .var _ => 1
  | .not v => nodeCount v + 1
  | .and l r => nodeCount l + nodeCount r + 1
  | .or l r => nodeCount l + nodeCount r + 1
  | .imp l r => nodeCount l + nodeCount r + 1
  | .iff l r => nodeCount l + nodeCount r + 1

/-- Structural depth of a formula: 0 for a leaf, 1 + maximum child depth
otherwise (the notion of "structural depth" the generator claims refer to). -/
def depthOf : AST → Nat
  | .var _ => 0
  | .not v => depthOf v + 1
  | .and l r => max (depthOf l) (depthOf r) + 1
  | .or l r => max (depthOf l) (depthOf r) + 1
  | .imp l r => max (depthOf l) (depthOf r) + 1
  | .iff l r => max (depthOf l) (depthOf r) + 1

/-- The annotations `place` writes on each copied node (source lines 217–219):
center `(x, y)` and the pre-order id.  The fields `x0`, `x1` additionally
record the horizontal span `[x0, x1]` the node was assigned (the arguments of
`place`), which the layout claims quantify over; `x` is always their
midpoint. -/
structure NodeInfo : Type where
  x : Rat
  y : Rat
  id : Nat
  x0 : Rat
  x1 : Rat
  deriving DecidableEq, Repr

/-- The positioned parallel tree produced by `layoutAST` (source type
`Positioned`), with one constructor per AST kind. -/
inductive Placed : Type where
  | var (name : String) (i : NodeInfo)
  | not (value : Placed) (i : NodeInfo)
  | and (left right : Placed) (i : NodeInfo)
  | or (left right : Placed) (i : NodeInfo)
  | imp (left right : Placed) (i : NodeInfo)
  | iff (left right : Placed) (i : NodeInfo)
  deriving DecidableEq, Repr

/-- The annotation record of a positioned node. -/
def info : Placed → NodeInfo
  | .var _ i => i
  | .not _ i => i
  | .and _ _ i => i
  | .or _ _ i => i
  | .imp _ _ i => i
  | .iff _ _ i => i

/-- Erase the annotations: the underlying AST of a positioned tree. -/
def strip : Placed → AST
  | .var n _ => .var n
  | .not v _ => .not (strip v)
  | .and l r _ => .and (strip l) (strip r)
  | .or l r _ => .or (strip l) (strip r)
  | .imp l r _ => .imp (strip l) (strip r)
  | .iff l r _ => .iff (strip l) (strip r)

/-- All nodes of a positioned tree in pre-order (node, then children
left-to-right), the order in which `place` visits and numbers them. -/
def allNodes : Placed → List Placed
  | p@(.var _ _) => [p]
  | p@(.not v _) => p :: allNodes v
  | p@(.and l r _) => p :: (allNodes l ++ allNodes r)
  | p@(.or l r _) => p :: (allNodes l ++ allNodes r)
  | p@(.imp l r _) => p :: (allNodes l ++ allNodes r)
  | p@(.iff l r _) => p :: (allNodes l ++ allNodes r)

/-- The two children of a binary positioned node, if any. -/
def binChildren : Placed → Option (Placed × Placed)
  | .and l r _ => some (l, r)
  | .or l r _ => some (l, r)
  | .imp l r _ => some (l, r)
  | .iff l r _ => some (l, r)
  | _ => none

/-- Source lines 216–229 `place`: copy the node, give it the next pre-order
id, center it in its span `[x0, x1]` at `y = 40 + depth*90`, pass the whole
span to a `not` child, and split the span of a binary node at
`mid = x0 + (size left / (size left + size right)) * (x1 - x0)`.  The mutable
`id++` counter is threaded explicitly; arithmetic is exact (rationals). -/
def place : AST → Rat → Rat → Nat → Nat → Placed × Nat
  | .var n, x0, x1, depth, i =>
    (.var n ⟨(x0 + x1) / 2, 40 + (depth : Rat) * 90, i, x0, x1⟩, i + 1)
  | .not v, x0, x1, depth, i =>
    let r := place v x0 x1 (depth + 1) (i + 1)
    (.not r.1 ⟨(x0 + x1) / 2, 40 + (depth : Rat) * 90, i, x0, x1⟩, r.2)
  | .and l r, x0, x1, depth, i =>
    let mid := x0 + ((size l : Rat) / ((size l : Rat) + (size r : Rat))) * (x1 - x0)
    let pl := place l x0 mid (depth + 1) (i + 1)
    let pr := place r mid x1 (depth + 1) pl.2
    (.and pl.1 pr.1 ⟨(x0 + x1) / 2, 40 + (depth : Rat) * 90, i, x0, x1⟩, pr.2)
  | .or l r, x0, x1, depth, i =>
    let mid := x0 + ((size l : Rat) / ((size l : Rat) + (size r : Rat))) * (x1 - x0)
    let pl := place l x0 mid (depth + 1) (i + 1)
    let pr := place r mid x1 (depth + 1) pl.2
    (.or pl.1 pr.1 ⟨(x0 + x1) / 2, 40 + (depth : Rat) * 90, i, x0, x1⟩, pr.2)
  | .imp l r, x0, x1, depth, i =>
    let mid := x0 + ((size l : Rat) / ((size l : Rat) + (size r : Rat))) * (x1 - x0)
    let pl := place l x0 mid (depth + 1) (i + 1)
    let pr := place r mid x1 (depth + 1) pl.2
    (.imp pl.1 pr.1 ⟨(x0 + x1) / 2, 40 + (depth : Rat) * 90, i, x0, x1⟩, pr.2)
  | .iff l r, x0, x1, depth, i =>
    let mid := x0 + ((size l : Rat) / ((size l : Rat) + (size r : Rat))) * (x1 - x0)
    let pl := place l x0 mid (depth + 1) (i + 1)
    let pr := place r mid x1 (depth + 1) pl.2
    (.iff pl.1 pr.1 ⟨(x0 + x1) / 2, 40 + (depth : Rat) * 90, i, x0, x1⟩, pr.2)

/-- Source lines 209–232 `layoutAST`: the root is placed in the span
`[40, w - 40]` where `w = max(size(root) * 80, 320)` (leaf width 80, minimum
width 320), at depth 0, starting the id counter at 0. -/
def layoutAST (root : AST) : Placed :=
  let w : Rat := max ((size root : Rat) * 80) 320
  (place root 40 (w - 40) 0 0).1

/-- A generated-formula record of `doGenerate` (source line 387).  The source
record keeps only the two rendered strings `{formula, pretty}`; the `ast`
field additionally records the candidate AST the record was produced from, so
that the claims about "the record's AST" can be stated. -/
structure GenRec : Type where
  formula : String
  pretty : String
  ast : AST
  deriving DecidableEq, Repr

/-- The `seen`-set dedup pass of source lines 395–396: keep the first record
with each `formula` string. -/
def dedupFormula : List GenRec → List String → List GenRec
  | [], _ => []
  | r :: rs, seen =>
    if r.formula ∈ seen then dedupFormula rs seen
    else r :: dedupFormula rs (r.formula :: seen)

/-- Stable insertion by `formula` length: scan past strictly shorter records
(`a.formula.length - b.formula.length < 0`), insert before the first record at
least as long. -/
def insertByLen (r : GenRec) : List GenRec → List GenRec
  | [] => [r]
  | s :: ss =>
    if s.formula.length < r.formula.length then s :: insertByLen r ss
    else r :: s :: ss

/-- `Array.prototype.sort((a,b) => a.formula.length - b.formula.length)`:
a stable ascending sort by printed length, modelled as stable insertion
sort (JS `Array.sort` is stable). -/
def sortByLen : List GenRec → List GenRec
  | [] => []
  | r :: rs => insertByLen r (sortByLen rs)

/-- The body of the `for (const ast of cands)` loop of `doGenerate` (source
lines 388–393): skip candidates without variables (`vars.length === 0`), keep
tautologies as `{formula, pretty}` records (both rendered with `astToInfix`),
drop the rest. -/
def genRecOf (ast : AST) : Option GenRec :=
  if (collectVarsRaw ast).length = 0 then none
  else if (isTautology ast).tautology then some ⟨astToText ast, astToText ast, ast⟩
  else none

/-- Source lines 382–404 `doGenerate` (the pure part, without the React state
updates): generate candidates, filter them through `genRecOf`, deduplicate by
`formula`, sort ascending by `formula.length`, and keep the first 64. -/
def doGenerate (depth : Nat) (atoms : List String) : List GenRec :=
  let cands := genFormulas depth atoms
  let results := cands.filterMap genRecOf
  (sortByLen (dedupFormula results [])).take 64

/-! Auxiliary definitions used to state and prove the claims. -/

/-- A character list is a token boundary if it is empty or starts with a
character that cannot extend an identifier. -/
def bdry : List Char → Bool
  | [] => true
  | c :: _ => !isIdentChar c

/-- The operator and parenthesis tokens the tokenizer can emit. -/
def specialToken (t : String) : Bool := t ∈ ["->", "<->", "!", "&", "|", "(", ")"]

/-- A well-formed identifier: an ASCII letter followed by letters, digits and
underscores — exactly the shape of the tokens the tokenizer's identifier
branch produces. -/
def validName (s : String) : Bool :=
  match s.data with
  | [] => false
  | c :: cs => isLetter c && cs.all isIdentChar

/-- A token is either one of the fixed operator tokens or an identifier. -/
def validToken (t : String) : Bool := specialToken t || validName t

/-- Every variable name in the formula is a well-formed identifier; this holds
of every AST `parseFormula` produces. -/
def validAST : AST → Bool
  | .var n => validName n
  | .not v => validAST v
  | .and l r => validAST l && validAST r
  | .or l r => validAST l && validAST r
  | .imp l r => validAST l && validAST r
  | .iff l r => validAST l && validAST r

/-- The token list of the printed form `astToText a`. -/
def toks : AST → List String
  | .var n => [n]
  | .not v => "!" :: "(" :: (toks v ++ [")"])
  | .and l r => "(" :: (toks l ++ "&" :: (toks r ++ [")"]))
  | .or l r => "(" :: (toks l ++ "|" :: (toks r ++ [")"]))
  | .imp l r => "(" :: (toks l ++ "->" :: (toks r ++ [")"]))
  | .iff l r => "(" :: (toks l ++ "<->" :: (toks r ++ [")"]))

/-- Thirty-one pairwise distinct variable names. -/
def names31 : List String :=
  ["x01", "x02", "x03", "x04", "x05", "x06", "x07", "x08", "x09", "x10",
   "x11", "x12", "x13", "x14", "x15", "x16", "x17", "x18", "x19", "x20",
   "x21", "x22", "x23", "x24", "x25", "x26", "x27", "x28", "x29", "x30", "x31"]

/-- A conjunction of 31 distinct variables: a formula with 31 free variables
that is falsified by the all-false assignment (so not a tautology). -/
def bigConj : AST :=
  names31.tail.foldl (fun acc n => AST.and acc (AST.var n)) (AST.var "x01")

/-! ## Tokenizer lemmas -/

/-- The result of `tokenizeF` does not depend on the fuel as long as the fuel
exceeds the number of remaining characters (every step consumes at least one
character). -/
lemma tokenizeF_congr (f : Nat) (l : List Char) : ∀ f' : Nat, l.length < f → l.length < f' →
    tokenizeF f l = tokenizeF f' l := by
  induction f, l using tokenizeF.induct with
  | case1 l => exact fun f' hf _ => absurd hf (by omega)
  | case2 n =>
    intro f' _ hf'
    obtain ⟨k, rfl⟩ : ∃ k, f' = k + 1 := ⟨f' - 1, by omega⟩
    rfl
  | case3 f cs ih =>
    intro f' hf hf'
    obtain ⟨k, rfl⟩ : ∃ k, f' = k + 1 := ⟨f' - 1, by omega⟩
    simp only [tokenizeF]
    exact ih k (by simp only [List.length_cons] at hf; omega)
      (by simp only [List.length_cons] at hf'; omega)
  | case4 f cs ih =>
    intro f' hf hf'
    obtain ⟨k, rfl⟩ : ∃ k, f' = k + 1 := ⟨f' - 1, by omega⟩
    simp only [tokenizeF]
    exact ih k (by simp only [List.length_cons] at hf; omega)
      (by simp only [List.length_cons] at hf'; omega)
  | case5 f cs ih =>
    intro f' hf hf'
    obtain ⟨k, rfl⟩ : ∃ k, f' = k + 1 := ⟨f' - 1, by omega⟩
    simp only [tokenizeF]
    exact ih k (by simp only [List.length_cons] at hf; omega)
      (by simp only [List.length_cons] at hf'; omega)
  | case6 f cs ih =>
    intro f' hf hf'
    obtain ⟨k, rfl⟩ : ∃ k, f' = k + 1 := ⟨f' - 1, by omega⟩
    simp only [tokenizeF]
    rw [ih k (by simp only [List.length_cons] at hf; omega)
      (by simp only [List.length_cons] at hf'; omega)]
  | case7 f cs ih =>
    intro f' hf hf'
    obtain ⟨k, rfl⟩ : ∃ k, f' = k + 1 := ⟨f' - 1, by omega⟩
    simp only [tokenizeF]
    rw [ih k (by simp only [List.length_cons] at hf; omega)
      (by simp only [List.length_cons] at hf'; omega)]
  | case8 f cs ih =>
    intro f' hf hf'
    obtain ⟨k, rfl⟩ : ∃ k, f' = k + 1 := ⟨f' - 1, by omega⟩
    simp only [tokenizeF]
    rw [ih k (by simp only [List.length_cons] at hf; omega)
      (by simp only [List.length_cons] at hf'; omega)]
  | case9 f cs ih =>
    intro f' hf hf'
    obtain ⟨k, rfl⟩ : ∃ k, f' = k + 1 := ⟨f' - 1, by omega⟩
    simp only [tokenizeF]
    rw [ih k (by simp only [List.length_cons] at hf; omega)
      (by simp only [List.length_cons] at hf'; omega)]
  | case10 f cs ih =>
    intro f' hf hf'
    obtain ⟨k, rfl⟩ : ∃ k, f' = k + 1 := ⟨f' - 1, by omega⟩
    simp only [tokenizeF]
    rw [ih k (by simp only [List.length_cons] at hf; omega)
      (by simp only [List.length_cons] at hf'; omega)]
  | case11 f cs ih =>
    intro f' hf hf'
    obtain ⟨k, rfl⟩ : ∃ k, f' = k + 1 := ⟨f' - 1, by omega⟩
    simp only [tokenizeF]
    rw [ih k (by simp only [List.length_cons] at hf; omega)
      (by simp only [List.length_cons] at hf'; omega)]
  | case12 f cs ih =>
    intro f' hf hf'
    obtain ⟨k, rfl⟩ : ∃ k, f' = k + 1 := ⟨f' - 1, by omega⟩
    simp only [tokenizeF]
    rw [ih k (by simp only [List.length_cons] at hf; omega)
      (by simp only [List.length_cons] at hf'; omega)]
  | case13 f cs ih =>
    intro f' hf hf'
    obtain ⟨k, rfl⟩ : ∃ k, f' = k + 1 := ⟨f' - 1, by omega⟩
    simp only [tokenizeF]
    rw [ih k (by simp only [List.length_cons] at hf; omega)
      (by simp only [List.length_cons] at hf'; omega)]
  | case14 f cs ih =>
    intro f' hf hf'
    obtain ⟨k, rfl⟩ : ∃ k, f' = k + 1 := ⟨f' - 1, by omega⟩
    simp only [tokenizeF]
    rw [ih k (by simp only [List.length_cons] at hf; omega)
      (by simp only [List.length_cons] at hf'; omega)]
  | case15 f cs ih =>
    intro f' hf hf'
    obtain ⟨k, rfl⟩ : ∃ k, f' = k + 1 := ⟨f' - 1, by omega⟩
    simp only [tokenizeF]
    rw [ih k (by simp only [List.length_cons] at hf; omega)
      (by simp only [List.length_cons] at hf'; omega)]
  | case16 f cs ih =>
    intro f' hf hf'
    obtain ⟨k, rfl⟩ : ∃ k, f' = k + 1 := ⟨f' - 1, by omega⟩
    simp only [tokenizeF]
    rw [ih k (by simp only [List.length_cons] at hf; omega)
      (by simp only [List.length_cons] at hf'; omega)]
  | case17 f cs ih =>
    intro f' hf hf'
    obtain ⟨k, rfl⟩ : ∃ k, f' = k + 1 := ⟨f' - 1, by omega⟩
    simp only [tokenizeF]
    rw [ih k (by simp only [List.length_cons] at hf; omega)
      (by simp only [List.length_cons] at hf'; omega)]
  | case18 f cs ih =>
    intro f' hf hf'
    obtain ⟨k, rfl⟩ : ∃ k, f' = k + 1 := ⟨f' - 1, by omega⟩
    simp only [tokenizeF]
    rw [ih k (by simp only [List.length_cons] at hf; omega)
      (by simp only [List.length_cons] at hf'; omega)]
  | case19 f cs ih =>
    intro f' hf hf'
    obtain ⟨k, rfl⟩ : ∃ k, f' = k + 1 := ⟨f' - 1, by omega⟩
    simp only [tokenizeF]
    rw [ih k (by simp only [List.length_cons] at hf; omega)
      (by simp only [List.length_cons] at hf'; omega)]
  | case20 f cs ih =>
    intro f' hf hf'
    obtain ⟨k, rfl⟩ : ∃ k, f' = k + 1 := ⟨f' - 1, by omega⟩
    simp only [tokenizeF]
    rw [ih k (by simp only [List.length_cons] at hf; omega)
      (by simp only [List.length_cons] at hf'; omega)]
  | case21 f c cs h1 h2 h3 h4 h5 h6 h7 h8 h9 h10 h11 h12 h13 h14 h15 h16 h17 h18 hl ih =>
    intro f' hf hf'
    obtain ⟨k, rfl⟩ : ∃ k, f' = k + 1 := ⟨f' - 1, by omega⟩
    have hd : (cs.dropWhile isIdentChar).length ≤ cs.length :=
      (List.dropWhile_sublist isIdentChar).length_le
    rw [tokenizeF.eq_21 f c cs h1 h2 h3 h4 h5 h6 h7 h8 h9 h10 h11 h12 h13 h14 h15 h16 h17 h18,
      tokenizeF.eq_21 k c cs h1 h2 h3 h4 h5 h6 h7 h8 h9 h10 h11 h12 h13 h14 h15 h16 h17 h18,
      if_pos hl, if_pos hl,
      ih k (by simp only [List.length_cons] at hf; omega)
        (by simp only [List.length_cons] at hf'; omega)]
  | case22 f c cs h1 h2 h3 h4 h5 h6 h7 h8 h9 h10 h11 h12 h13 h14 h15 h16 h17 h18 hnl =>
    intro f' hf hf'
    obtain ⟨k, rfl⟩ : ∃ k, f' = k + 1 := ⟨f' - 1, by omega⟩
    rw [tokenizeF.eq_21 f c cs h1 h2 h3 h4 h5 h6 h7 h8 h9 h10 h11 h12 h13 h14 h15 h16 h17 h18,
      tokenizeF.eq_21 k c cs h1 h2 h3 h4 h5 h6 h7 h8 h9 h10 h11 h12 h13 h14 h15 h16 h17 h18,
      if_neg hnl, if_neg hnl]

lemma tokenizeL_nil : tokenizeL [] = some [] := rfl

lemma tokenizeL_space (cs : List Char) : tokenizeL (' ' :: cs) = tokenizeL cs := rfl

lemma tokenizeL_notg (cs : List Char) :
    tokenizeL ('¬' :: cs) = (fun ts => "!" :: ts) <$> tokenizeL cs := rfl

lemma tokenizeL_andg (cs : List Char) :
    tokenizeL ('∧' :: cs) = (fun ts => "&" :: ts) <$> tokenizeL cs := rfl

lemma tokenizeL_org (cs : List Char) :
    tokenizeL ('∨' :: cs) = (fun ts => "|" :: ts) <$> tokenizeL cs := rfl

lemma tokenizeL_impg (cs : List Char) :
    tokenizeL ('→' :: cs) = (fun ts => "->" :: ts) <$> tokenizeL cs := rfl

lemma tokenizeL_iffg (cs : List Char) :
    tokenizeL ('↔' :: cs) = (fun ts => "<->" :: ts) <$> tokenizeL cs := rfl

lemma tokenizeL_lparen (cs : List Char) :
    tokenizeL ('(' :: cs) = (fun ts => "(" :: ts) <$> tokenizeL cs := rfl

lemma tokenizeL_rparen (cs : List Char) :
    tokenizeL (')' :: cs) = (fun ts => ")" :: ts) <$> tokenizeL cs := rfl

lemma tokenizeL_arrow (cs : List Char) :
    tokenizeL ('-' :: '>' :: cs) = (fun ts => "->" :: ts) <$> tokenizeL cs := by
  show tokenizeF (cs.length + 1 + 1 + 1) ('-' :: '>' :: cs) = _
  simp only [tokenizeF]
  rw [tokenizeF_congr (cs.length + 1 + 1) cs (cs.length + 1) (by omega) (by omega)]
  rfl

/-- ASCII letters lie in the ranges `[65, 90]` and `[97, 122]`. -/
lemma isLetter_ranges {c : Char} (h : isLetter c = true) :
    (65 ≤ c.toNat ∧ c.toNat ≤ 90) ∨ (97 ≤ c.toNat ∧ c.toNat ≤ 122) := by
  simp only [isLetter, Bool.or_eq_true, Bool.and_eq_true, decide_eq_true_eq] at h
  rcases h with ⟨ha, hb⟩ | ⟨ha, hb⟩ <;>
    rw [Char.le_def, UInt32.le_def, BitVec.le_def] at ha hb
  · exact Or.inl ⟨ha, hb⟩
  · exact Or.inr ⟨ha, hb⟩

/-- A letter is distinct from any character outside the two letter ranges. -/
lemma isLetter_ne {c : Char} (h : isLetter c = true) (d : Char)
    (hd : d.toNat < 65 ∨ (90 < d.toNat ∧ d.toNat < 97) ∨ 122 < d.toNat) : c = d → False := by
  intro hcd
  subst hcd
  rcases isLetter_ranges h with ⟨ha, hb⟩ | ⟨ha, hb⟩ <;> omega

lemma tokenizeL_ident (c : Char) (cs : List Char) (h : isLetter c = true) :
    tokenizeL (c :: cs) =
      (fun ts => String.mk (c :: cs.takeWhile isIdentChar) :: ts) <$>
        tokenizeL (cs.dropWhile isIdentChar) := by
  have hd : (cs.dropWhile isIdentChar).length ≤ cs.length :=
    (List.dropWhile_sublist isIdentChar).length_le
  show tokenizeF (cs.length + 1 + 1) (c :: cs) = _
  rw [tokenizeF.eq_21 (cs.length + 1) c cs
      (isLetter_ne h ' ' (by decide)) (isLetter_ne h '\n' (by decide))
      (isLetter_ne h '\t' (by decide)) (isLetter_ne h '→' (by decide))
      (isLetter_ne h '↔' (by decide)) (isLetter_ne h '≡' (by decide))
      (isLetter_ne h '¬' (by decide)) (isLetter_ne h '~' (by decide))
      (isLetter_ne h '!' (by decide)) (isLetter_ne h '∧' (by decide))
      (isLetter_ne h '&' (by decide)) (isLetter_ne h '∨' (by decide))
      (isLetter_ne h '|' (by decide)) (isLetter_ne h '(' (by decide))
      (isLetter_ne h ')' (by decide))
      (fun _ hc _ => isLetter_ne h '-' (by decide) hc)
      (fun _ hc _ => isLetter_ne h '<' (by decide) hc)
      (fun _ hc _ => isLetter_ne h '←' (by decide) hc),
    if_pos h,
    tokenizeF_congr (cs.length + 1) (cs.dropWhile isIdentChar)
      ((cs.dropWhile isIdentChar).length + 1) (by omega) (by omega)]
  rfl

/-- If every character of `l` can extend an identifier, `takeWhile` over
`l ++ m` takes all of `l` first. -/
lemma takeWhile_append_all {p : Char → Bool} (l m : List Char) (h : ∀ x ∈ l, p x = true) :
    (l ++ m).takeWhile p = l ++ m.takeWhile p := by
  induction l with
  | nil => simp
  | cons c cs ih =>
    have hc : p c = true := h c (by simp)
    have ih' := ih (fun x hx => h x (by simp [hx]))
    simp [List.takeWhile_cons, hc, ih']

lemma dropWhile_append_all {p : Char → Bool} (l m : List Char) (h : ∀ x ∈ l, p x = true) :
    (l ++ m).dropWhile p = m.dropWhile p := by
  induction l with
  | nil => simp
  | cons c cs ih =>
    have hc : p c = true := h c (by simp)
    have ih' := ih (fun x hx => h x (by simp [hx]))
    simp [List.dropWhile_cons, hc, ih']

lemma takeWhile_bdry (cs : List Char) (h : bdry cs = true) :
    cs.takeWhile isIdentChar = [] := by
  cases cs with
  | nil => rfl
  | cons c cs' =>
    simp only [bdry, Bool.not_eq_true'] at h
    simp [List.takeWhile_cons, h]

lemma dropWhile_bdry (cs : List Char) (h : bdry cs = true) :
    cs.dropWhile isIdentChar = cs := by
  cases cs with
  | nil => rfl
  | cons c cs' =>
    simp only [bdry, Bool.not_eq_true'] at h
    simp [List.dropWhile_cons, h]

lemma str_data_append (s t : String) : (s ++ t).data = s.data ++ t.data := by
  cases s
  cases t
  rfl

/-- Tokenizing the printed form of a well-formed formula, followed by any
token boundary, yields its token list `toks` followed by the tokens of the
remainder. -/
lemma print_tokens (a : AST) : ∀ cs : List Char, validAST a = true → bdry cs = true →
    tokenizeL ((astToText a).data ++ cs) = (fun ts => toks a ++ ts) <$> tokenizeL cs := by
  induction a with
  | var n =>
    intro cs hv hcs
    simp only [validAST, validName] at hv
    cases hn : n.data with
    | nil => rw [hn] at hv; exact absurd hv (by simp)
    | cons c t =>
      rw [hn] at hv
      simp only [Bool.and_eq_true, List.all_eq_true] at hv
      have hmk : String.mk (c :: t) = n := by rw [← hn]
      have h1 : (astToText (AST.var n)).data ++ cs = c :: (t ++ cs) := by
        simp [astToText, hn]
      rw [h1, tokenizeL_ident c (t ++ cs) hv.1,
        takeWhile_append_all t cs hv.2, dropWhile_append_all t cs hv.2,
        takeWhile_bdry cs hcs, dropWhile_bdry cs hcs]
      simp [hmk, toks]
  | not v ih =>
    intro cs hv hcs
    have hv' : validAST v = true := by simpa [validAST] using hv
    have h1 : (astToText (AST.not v)).data ++ cs =
        '¬' :: '(' :: ((astToText v).data ++ (')' :: cs)) := by
      simp [astToText, str_data_append]
    rw [h1, tokenizeL_notg, tokenizeL_lparen, ih (')' :: cs) hv' rfl,
      tokenizeL_rparen]
    cases tokenizeL cs <;> simp [toks]
  | and l r ihl ihr =>
    intro cs hv hcs
    obtain ⟨hvl, hvr⟩ : validAST l = true ∧ validAST r = true := by
      simpa [validAST] using hv
    have h1 : (astToText (AST.and l r)).data ++ cs =
        '(' :: ((astToText l).data ++
          (' ' :: '∧' :: ' ' :: ((astToText r).data ++ (')' :: cs)))) := by
      simp [astToText, str_data_append]
    rw [h1, tokenizeL_lparen,
      ihl (' ' :: '∧' :: ' ' :: ((astToText r).data ++ (')' :: cs))) hvl rfl,
      tokenizeL_space, tokenizeL_andg, tokenizeL_space,
      ihr (')' :: cs) hvr rfl, tokenizeL_rparen]
    cases tokenizeL cs <;> simp [toks]
  | or l r ihl ihr =>
    intro cs hv hcs
    obtain ⟨hvl, hvr⟩ : validAST l = true ∧ validAST r = true := by
      simpa [validAST] using hv
    have h1 : (astToText (AST.or l r)).data ++ cs =
        '(' :: ((astToText l).data ++
          (' ' :: '∨' :: ' ' :: ((astToText r).data ++ (')' :: cs)))) := by
      simp [astToText, str_data_append]
    rw [h1, tokenizeL_lparen,
      ihl (' ' :: '∨' :: ' ' :: ((astToText r).data ++ (')' :: cs))) hvl rfl,
      tokenizeL_space, tokenizeL_org, tokenizeL_space,
      ihr (')' :: cs) hvr rfl, tokenizeL_rparen]
    cases tokenizeL cs <;> simp [toks]
  | imp l r ihl ihr =>
    intro cs hv hcs
    obtain ⟨hvl, hvr⟩ : validAST l = true ∧ validAST r = true := by
      simpa [validAST] using hv
    have h1 : (astToText (AST.imp l r)).data ++ cs =
        '(' :: ((astToText l).data ++
          (' ' :: '→' :: ' ' :: ((astToText r).data ++ (')' :: cs)))) := by
      simp [astToText, str_data_append]
    rw [h1, tokenizeL_lparen,
      ihl (' ' :: '→' :: ' ' :: ((astToText r).data ++ (')' :: cs))) hvl rfl,
      tokenizeL_space, tokenizeL_impg, tokenizeL_space,
      ihr (')' :: cs) hvr rfl, tokenizeL_rparen]
    cases tokenizeL cs <;> simp [toks]
  | iff l r ihl ihr =>
    intro cs hv hcs
    obtain ⟨hvl, hvr⟩ : validAST l = true ∧ validAST r = true := by
      simpa [validAST] using hv
    have h1 : (astToText (AST.iff l r)).data ++ cs =
        '(' :: ((astToText l).data ++
          (' ' :: '↔' :: ' ' :: ((astToText r).data ++ (')' :: cs)))) := by
      simp [astToText, str_data_append]
    rw [h1, tokenizeL_lparen,
      ihl (' ' :: '↔' :: ' ' :: ((astToText r).data ++ (')' :: cs))) hvl rfl,
      tokenizeL_space, tokenizeL_iffg, tokenizeL_space,
      ihr (')' :: cs) hvr rfl, tokenizeL_rparen]
    cases tokenizeL cs <;> simp [toks]

/-- Tokenizing the printed form of a well-formed formula yields `toks`. -/
lemma tokenize_print (a : AST) (hv : validAST a = true) :
    tokenize (astToText a) = some (toks a) := by
  have h := print_tokens a [] hv (by decide)
  rw [List.append_nil] at h
  simpa [tokenize, tokenizeL_nil] using h

/-! ## Parser lemmas -/

lemma toks_len_pos (a : AST) : 1 ≤ (toks a).length := by
  cases a <;> simp [toks]

lemma validName_head {n : String} (h : validName n = true) : headIsLetter n = true := by
  unfold validName at h
  unfold headIsLetter
  cases hn : n.data with
  | nil => rw [hn] at h; exact absurd h (by simp)
  | cons c t =>
    rw [hn] at h
    have h' : (isLetter c && t.all isIdentChar) = true := h
    simp only [Bool.and_eq_true] at h'
    exact h'.1

lemma validName_ne_lparen {n : String} (h : validName n = true) : n ≠ "(" := by
  intro e
  rw [e] at h
  exact absurd h (by decide)

lemma validName_ne_bang {n : String} (h : validName n = true) : n ≠ "!" := by
  intro e
  rw [e] at h
  exact absurd h (by decide)

lemma parseRun_loop_nil (f mp : Nat) (left : AST) :
    parseRun (f + 1) (.loop mp left) [] = some (left, []) := rfl

lemma parseRun_loop_rparen (f mp : Nat) (left : AST) (rest : List String) :
    parseRun (f + 1) (.loop mp left) (")" :: rest) = some (left, ")" :: rest) := rfl

lemma parseRun_loop_lt (f mp : Nat) (left : AST) (op : String) (rest : List String)
    (prec : Nat) (hop : precOf op = some prec) (hlt : prec < mp) :
    parseRun (f + 1) (.loop mp left) (op :: rest) = some (left, op :: rest) := by
  simp only [parseRun, hop, if_pos hlt]

lemma parseRun_loop_op (f mp : Nat) (left : AST) (op : String) (rest : List String)
    (prec : Nat) (hop : precOf op = some prec) (hmp : ¬ prec < mp)
    (right : AST) (rest2 : List String)
    (hexpr : parseRun f (.expr (prec + (if op = "!" then 0 else 1))) rest = some (right, rest2))
    (node : AST) (hbin : mkBin op left right = some node) :
    parseRun (f + 1) (.loop mp left) (op :: rest) = parseRun f (.loop mp node) rest2 := by
  simp only [parseRun, hop, if_neg hmp, hexpr, hbin]

lemma parseRun_expr_of_atom (f mp : Nat) (ts : List String) (a : AST) (rest : List String)
    (h : parseRun f .atom ts = some (a, rest))
    (hstop : rest = [] ∨ ∃ r', rest = ")" :: r') (hf1 : 1 ≤ f) :
    parseRun (f + 1) (.expr mp) ts = some (a, rest) := by
  simp only [parseRun, h]
  obtain ⟨g, rfl⟩ : ∃ g, f = g + 1 := ⟨f - 1, by omega⟩
  rcases hstop with rfl | ⟨r', rfl⟩
  · rfl
  · rfl

lemma parseRun_atom_lparen (f : Nat) (ts : List String) (e : AST) (rest : List String)
    (h : parseRun f (.expr 0) ts = some (e, ")" :: rest)) :
    parseRun (f + 1) .atom ("(" :: ts) = some (e, rest) := by
  simp [parseRun, h]

lemma parseRun_atom_bang (f : Nat) (ts : List String) (e : AST) (rest : List String)
    (h : parseRun f .atom ts = some (e, rest)) :
    parseRun (f + 1) .atom ("!" :: ts) = some (AST.not e, rest) := by
  simp [parseRun, h]

lemma parseRun_expr_step (f mp : Nat) (ts : List String) (left : AST) (rest : List String)
    (h : parseRun f .atom ts = some (left, rest)) :
    parseRun (f + 1) (.expr mp) ts = parseRun f (.loop mp left) rest := by
  simp only [parseRun, h]

lemma parseRun_atom_var (f : Nat) (n : String) (rest : List String)
    (h : headIsLetter n = true) (h1 : n ≠ "(") (h2 : n ≠ "!") :
    parseRun (f + 1) .atom (n :: rest) = some (AST.var n, rest) := by
  simp only [parseRun]
  rw [if_neg h1, if_neg h2, if_pos h]

/-- Parsing the token list of a printed well-formed formula as an atom
succeeds, consuming exactly those tokens, whatever follows and with any fuel
of at least twice the token count. -/
lemma parse_toks (a : AST) : ∀ (f : Nat) (rest : List String), validAST a = true →
    2 * (toks a).length ≤ f → parseRun f .atom (toks a ++ rest) = some (a, rest) := by
  induction a with
  | var n =>
    intro f rest hv hf
    simp only [toks, List.length_cons, List.length_nil] at hf
    obtain ⟨g, rfl⟩ : ∃ g, f = g + 1 := ⟨f - 1, by omega⟩
    simp only [validAST] at hv
    have harr : toks (AST.var n) ++ rest = n :: rest := by simp [toks]
    rw [harr]
    exact parseRun_atom_var g n rest (validName_head hv) (validName_ne_lparen hv)
      (validName_ne_bang hv)
  | not v ih =>
    intro f rest hv hf
    have hv' : validAST v = true := by simpa [validAST] using hv
    have hL : (toks (AST.not v)).length = (toks v).length + 3 := by simp [toks]
    rw [hL] at hf
    obtain ⟨g, rfl⟩ : ∃ g, f = g + 3 := ⟨f - 3, by omega⟩
    have harr : toks (AST.not v) ++ rest = "!" :: ("(" :: (toks v ++ (")" :: rest))) := by
      simp [toks]
    rw [harr]
    have hv3 : parseRun g .atom (toks v ++ (")" :: rest)) = some (v, ")" :: rest) :=
      ih g (")" :: rest) hv' (by omega)
    have hv2 : parseRun (g + 1) (.expr 0) (toks v ++ (")" :: rest)) = some (v, ")" :: rest) :=
      parseRun_expr_of_atom g 0 _ v _ hv3 (Or.inr ⟨rest, rfl⟩)
        (by have := toks_len_pos v; omega)
    have hv1 : parseRun (g + 2) .atom ("(" :: (toks v ++ (")" :: rest))) = some (v, rest) :=
      parseRun_atom_lparen (g + 1) _ v rest hv2
    exact parseRun_atom_bang (g + 2) _ v rest hv1
  | and l r ihl ihr =>
    intro f rest hv hf
    obtain ⟨hvl, hvr⟩ : validAST l = true ∧ validAST r = true := by
      simpa [validAST] using hv
    have hL : (toks (AST.and l r)).length = (toks l).length + (toks r).length + 3 := by
      simp [toks]
      omega
    rw [hL] at hf
    have hpl := toks_len_pos l
    have hpr := toks_len_pos r
    obtain ⟨g, rfl⟩ : ∃ g, f = g + 4 := ⟨f - 4, by omega⟩
    have harr : toks (AST.and l r) ++ rest =
        "(" :: (toks l ++ ("&" :: (toks r ++ (")" :: rest)))) := by simp [toks]
    rw [harr]
    have hrx : parseRun (g + 1) (.expr 4) (toks r ++ (")" :: rest)) = some (r, ")" :: rest) :=
      parseRun_expr_of_atom g 4 _ r _ (ihr g (")" :: rest) hvr (by omega))
        (Or.inr ⟨rest, rfl⟩) (by omega)
    have hloop : parseRun (g + 2) (.loop 0 l) ("&" :: (toks r ++ (")" :: rest))) =
        parseRun (g + 1) (.loop 0 (AST.and l r)) (")" :: rest) :=
      parseRun_loop_op (g + 1) 0 l "&" _ 3 rfl (by omega) r (")" :: rest) hrx
        (AST.and l r) rfl
    have hexpr0 : parseRun (g + 3) (.expr 0) (toks l ++ ("&" :: (toks r ++ (")" :: rest)))) =
        some (AST.and l r, ")" :: rest) := by
      rw [parseRun_expr_step (g + 2) 0 _ l _
        (ihl (g + 2) ("&" :: (toks r ++ (")" :: rest))) hvl (by omega)), hloop]
      exact parseRun_loop_rparen g 0 (AST.and l r) rest
    exact parseRun_atom_lparen (g + 3) _ (AST.and l r) rest hexpr0
  | or l r ihl ihr =>
    intro f rest hv hf
    obtain ⟨hvl, hvr⟩ : validAST l = true ∧ validAST r = true := by
      simpa [validAST] using hv
    have hL : (toks (AST.or l r)).length = (toks l).length + (toks r).length + 3 := by
      simp [toks]
      omega
    rw [hL] at hf
    have hpl := toks_len_pos l
    have hpr := toks_len_pos r
    obtain ⟨g, rfl⟩ : ∃ g, f = g + 4 := ⟨f - 4, by omega⟩
    have harr : toks (AST.or l r) ++ rest =
        "(" :: (toks l ++ ("|" :: (toks r ++ (")" :: rest)))) := by simp [toks]
    rw [harr]
    have hrx : parseRun (g + 1) (.expr 3) (toks r ++ (")" :: rest)) = some (r, ")" :: rest) :=
      parseRun_expr_of_atom g 3 _ r _ (ihr g (")" :: rest) hvr (by omega))
        (Or.inr ⟨rest, rfl⟩) (by omega)
    have hloop : parseRun (g + 2) (.loop 0 l) ("|" :: (toks r ++ (")" :: rest))) =
        parseRun (g + 1) (.loop 0 (AST.or l r)) (")" :: rest) :=
      parseRun_loop_op (g + 1) 0 l "|" _ 2 rfl (by omega) r (")" :: rest) hrx
        (AST.or l r) rfl
    have hexpr0 : parseRun (g + 3) (.expr 0) (toks l ++ ("|" :: (toks r ++ (")" :: rest)))) =
        some (AST.or l r, ")" :: rest) := by
      rw [parseRun_expr_step (g + 2) 0 _ l _
        (ihl (g + 2) ("|" :: (toks r ++ (")" :: rest))) hvl (by omega)), hloop]
      exact parseRun_loop_rparen g 0 (AST.or l r) rest
    exact parseRun_atom_lparen (g + 3) _ (AST.or l r) rest hexpr0
  | imp l r ihl ihr =>
    intro f rest hv hf
    obtain ⟨hvl, hvr⟩ : validAST l = true ∧ validAST r = true := by
      simpa [validAST] using hv
    have hL : (toks (AST.imp l r)).length = (toks l).length + (toks r).length + 3 := by
      simp [toks]
      omega
    rw [hL] at hf
    have hpl := toks_len_pos l
    have hpr := toks_len_pos r
    obtain ⟨g, rfl⟩ : ∃ g, f = g + 4 := ⟨f - 4, by omega⟩
    have harr : toks (AST.imp l r) ++ rest =
        "(" :: (toks l ++ ("->" :: (toks r ++ (")" :: rest)))) := by simp [toks]
    rw [harr]
    have hrx : parseRun (g + 1) (.expr 2) (toks r ++ (")" :: rest)) = some (r, ")" :: rest) :=
      parseRun_expr_of_atom g 2 _ r _ (ihr g (")" :: rest) hvr (by omega))
        (Or.inr ⟨rest, rfl⟩) (by omega)
    have hloop : parseRun (g + 2) (.loop 0 l) ("->" :: (toks r ++ (")" :: rest))) =
        parseRun (g + 1) (.loop 0 (AST.imp l r)) (")" :: rest) :=
      parseRun_loop_op (g + 1) 0 l "->" _ 1 rfl (by omega) r (")" :: rest) hrx
        (AST.imp l r) rfl
    have hexpr0 : parseRun (g + 3) (.expr 0) (toks l ++ ("->" :: (toks r ++ (")" :: rest)))) =
        some (AST.imp l r, ")" :: rest) := by
      rw [parseRun_expr_step (g + 2) 0 _ l _
        (ihl (g + 2) ("->" :: (toks r ++ (")" :: rest))) hvl (by omega)), hloop]
      exact parseRun_loop_rparen g 0 (AST.imp l r) rest
    exact parseRun_atom_lparen (g + 3) _ (AST.imp l r) rest hexpr0
  | iff l r ihl ihr =>
    intro f rest hv hf
    obtain ⟨hvl, hvr⟩ : validAST l = true ∧ validAST r = true := by
      simpa [validAST] using hv
    have hL : (toks (AST.iff l r)).length = (toks l).length + (toks r).length + 3 := by
      simp [toks]
      omega
    rw [hL] at hf
    have hpl := toks_len_pos l
    have hpr := toks_len_pos r
    obtain ⟨g, rfl⟩ : ∃ g, f = g + 4 := ⟨f - 4, by omega⟩
    have harr : toks (AST.iff l r) ++ rest =
        "(" :: (toks l ++ ("<->" :: (toks r ++ (")" :: rest)))) := by simp [toks]
    rw [harr]
    have hrx : parseRun (g + 1) (.expr 1) (toks r ++ (")" :: rest)) = some (r, ")" :: rest) :=
      parseRun_expr_of_atom g 1 _ r _ (ihr g (")" :: rest) hvr (by omega))
        (Or.inr ⟨rest, rfl⟩) (by omega)
    have hloop : parseRun (g + 2) (.loop 0 l) ("<->" :: (toks r ++ (")" :: rest))) =
        parseRun (g + 1) (.loop 0 (AST.iff l r)) (")" :: rest) :=
      parseRun_loop_op (g + 1) 0 l "<->" _ 0 rfl (by omega) r (")" :: rest) hrx
        (AST.iff l r) rfl
    have hexpr0 : parseRun (g + 3) (.expr 0) (toks l ++ ("<->" :: (toks r ++ (")" :: rest)))) =
        some (AST.iff l r, ")" :: rest) := by
      rw [parseRun_expr_step (g + 2) 0 _ l _
        (ihl (g + 2) ("<->" :: (toks r ++ (")" :: rest))) hvl (by omega)), hloop]
      exact parseRun_loop_rparen g 0 (AST.iff l r) rest
    exact parseRun_atom_lparen (g + 3) _ (AST.iff l r) rest hexpr0

/-- Every token the tokenizer emits is an operator token or an identifier. -/
lemma tokenizeF_valid (f : Nat) (l : List Char) : ∀ ts, tokenizeF f l = some ts →
    ∀ t ∈ ts, validToken t = true := by
  induction f, l using tokenizeF.induct with
  | case1 l => intro ts h; exact absurd h (by simp [tokenizeF])
  | case2 n =>
    intro ts h t ht
    simp only [tokenizeF, Option.some.injEq] at h
    subst h
    exact absurd ht (by simp)
  | case3 f cs ih => intro ts h; exact ih ts h
  | case4 f cs ih => intro ts h; exact ih ts h
  | case5 f cs ih => intro ts h; exact ih ts h
  | case6 f cs ih =>
    intro ts h t ht
    simp only [tokenizeF] at h
    cases he : tokenizeF f cs with
    | none => rw [he] at h; exact absurd h (by simp)
    | some ts' =>
      rw [he] at h
      simp only [Option.map_eq_map, Option.map_some', Option.some.injEq] at h
      subst h
      rcases List.mem_cons.mp ht with rfl | ht'
      · decide
      · exact ih ts' he t ht'
  | case7 f cs ih =>
    intro ts h t ht
    simp only [tokenizeF] at h
    cases he : tokenizeF f cs with
    | none => rw [he] at h; exact absurd h (by simp)
    | some ts' =>
      rw [he] at h
      simp only [Option.map_eq_map, Option.map_some', Option.some.injEq] at h
      subst h
      rcases List.mem_cons.mp ht with rfl | ht'
      · decide
      · exact ih ts' he t ht'
  | case8 f cs ih =>
    intro ts h t ht
    simp only [tokenizeF] at h
    cases he : tokenizeF f cs with
    | none => rw [he] at h; exact absurd h (by simp)
    | some ts' =>
      rw [he] at h
      simp only [Option.map_eq_map, Option.map_some', Option.some.injEq] at h
      subst h
      rcases List.mem_cons.mp ht with rfl | ht'
      · decide
      · exact ih ts' he t ht'
  | case9 f cs ih =>
    intro ts h t ht
    simp only [tokenizeF] at h
    cases he : tokenizeF f cs with
    | none => rw [he] at h; exact absurd h (by simp)
    | some ts' =>
      rw [he] at h
      simp only [Option.map_eq_map, Option.map_some', Option.some.injEq] at h
      subst h
      rcases List.mem_cons.mp ht with rfl | ht'
      · decide
      · exact ih ts' he t ht'
  | case10 f cs ih =>
    intro ts h t ht
    simp only [tokenizeF] at h
    cases he : tokenizeF f cs with
    | none => rw [he] at h; exact absurd h (by simp)
    | some ts' =>
      rw [he] at h
      simp only [Option.map_eq_map, Option.map_some', Option.some.injEq] at h
      subst h
      rcases List.mem_cons.mp ht with rfl | ht'
      · decide
      · exact ih ts' he t ht'
  | case11 f cs ih =>
    intro ts h t ht
    simp only [tokenizeF] at h
    cases he : tokenizeF f cs with
    | none => rw [he] at h; exact absurd h (by simp)
    | some ts' =>
      rw [he] at h
      simp only [Option.map_eq_map, Option.map_some', Option.some.injEq] at h
      subst h
      rcases List.mem_cons.mp ht with rfl | ht'
      · decide
      · exact ih ts' he t ht'
  | case12 f cs ih =>
    intro ts h t ht
    simp only [tokenizeF] at h
    cases he : tokenizeF f cs with
    | none => rw [he] at h; exact absurd h (by simp)
    | some ts' =>
      rw [he] at h
      simp only [Option.map_eq_map, Option.map_some', Option.some.injEq] at h
      subst h
      rcases List.mem_cons.mp ht with rfl | ht'
      · decide
      · exact ih ts' he t ht'
  | case13 f cs ih =>
    intro ts h t ht
    simp only [tokenizeF] at h
    cases he : tokenizeF f cs with
    | none => rw [he] at h; exact absurd h (by simp)
    | some ts' =>
      rw [he] at h
      simp only [Option.map_eq_map, Option.map_some', Option.some.injEq] at h
      subst h
      rcases List.mem_cons.mp ht with rfl | ht'
      · decide
      · exact ih ts' he t ht'
  | case14 f cs ih =>
    intro ts h t ht
    simp only [tokenizeF] at h
    cases he : tokenizeF f cs with
    | none => rw [he] at h; exact absurd h (by simp)
    | some ts' =>
      rw [he] at h
      simp only [Option.map_eq_map, Option.map_some', Option.some.injEq] at h
      subst h
      rcases List.mem_cons.mp ht with rfl | ht'
      · decide
      · exact ih ts' he t ht'
  | case15 f cs ih =>
    intro ts h t ht
    simp only [tokenizeF] at h
    cases he : tokenizeF f cs with
    | none => rw [he] at h; exact absurd h (by simp)
    | some ts' =>
      rw [he] at h
      simp only [Option.map_eq_map, Option.map_some', Option.some.injEq] at h
      subst h
      rcases List.mem_cons.mp ht with rfl | ht'
      · decide
      · exact ih ts' he t ht'
  | case16 f cs ih =>
    intro ts h t ht
    simp only [tokenizeF] at h
    cases he : tokenizeF f cs with
    | none => rw [he] at h; exact absurd h (by simp)
    | some ts' =>
      rw [he] at h
      simp only [Option.map_eq_map, Option.map_some', Option.some.injEq] at h
      subst h
      rcases List.mem_cons.mp ht with rfl | ht'
      · decide
      · exact ih ts' he t ht'
  | case17 f cs ih =>
    intro ts h t ht
    simp only [tokenizeF] at h
    cases he : tokenizeF f cs with
    | none => rw [he] at h; exact absurd h (by simp)
    | some ts' =>
      rw [he] at h
      simp only [Option.map_eq_map, Option.map_some', Option.some.injEq] at h
      subst h
      rcases List.mem_cons.mp ht with rfl | ht'
      · decide
      · exact ih ts' he t ht'
  | case18 f cs ih =>
    intro ts h t ht
    simp only [tokenizeF] at h
    cases he : tokenizeF f cs with
    | none => rw [he] at h; exact absurd h (by simp)
    | some ts' =>
      rw [he] at h
      simp only [Option.map_eq_map, Option.map_some', Option.some.injEq] at h
      subst h
      rcases List.mem_cons.mp ht with rfl | ht'
      · decide
      · exact ih ts' he t ht'
  | case19 f cs ih =>
    intro ts h t ht
    simp only [tokenizeF] at h
    cases he : tokenizeF f cs with
    | none => rw [he] at h; exact absurd h (by simp)
    | some ts' =>
      rw [he] at h
      simp only [Option.map_eq_map, Option.map_some', Option.some.injEq] at h
      subst h
      rcases List.mem_cons.mp ht with rfl | ht'
      · decide
      · exact ih ts' he t ht'
  | case20 f cs ih =>
    intro ts h t ht
    simp only [tokenizeF] at h
    cases he : tokenizeF f cs with
    | none => rw [he] at h; exact absurd h (by simp)
    | some ts' =>
      rw [he] at h
      simp only [Option.map_eq_map, Option.map_some', Option.some.injEq] at h
      subst h
      rcases List.mem_cons.mp ht with rfl | ht'
      · decide
      · exact ih ts' he t ht'
  | case21 f c cs h1 h2 h3 h4 h5 h6 h7 h8 h9 h10 h11 h12 h13 h14 h15 h16 h17 h18 hl ih =>
    intro ts h t ht
    rw [tokenizeF.eq_21 f c cs h1 h2 h3 h4 h5 h6 h7 h8 h9 h10 h11 h12 h13 h14 h15 h16 h17 h18,
      if_pos hl] at h
    cases he : tokenizeF f (cs.dropWhile isIdentChar) with
    | none => rw [he] at h; exact absurd h (by simp)
    | some ts' =>
      rw [he] at h
      simp only [Option.map_eq_map, Option.map_some', Option.some.injEq] at h
      subst h
      rcases List.mem_cons.mp ht with rfl | ht'
      · have hall : (cs.takeWhile isIdentChar).all isIdentChar = true :=
          List.all_eq_true.mpr fun x hx => List.mem_takeWhile_imp hx
        simp [validToken, validName, hl, hall]
      · exact ih ts' he t ht'
  | case22 f c cs h1 h2 h3 h4 h5 h6 h7 h8 h9 h10 h11 h12 h13 h14 h15 h16 h17 h18 hnl =>
    intro ts h
    rw [tokenizeF.eq_21 f c cs h1 h2 h3 h4 h5 h6 h7 h8 h9 h10 h11 h12 h13 h14 h15 h16 h17 h18,
      if_neg hnl] at h
    exact absurd h (by simp)

/-- `mkBin` builds a node whose variables are those of its operands. -/
lemma mkBin_valid {op : String} {l r node : AST} (h : mkBin op l r = some node)
    (hl : validAST l = true) (hr : validAST r = true) : validAST node = true := by
  unfold mkBin at h
  split_ifs at h
  · simp only [Option.some.injEq] at h; subst h; simp [validAST, hl, hr]
  · simp only [Option.some.injEq] at h; subst h; simp [validAST, hl, hr]
  · simp only [Option.some.injEq] at h; subst h; simp [validAST, hl, hr]
  · simp only [Option.some.injEq] at h; subst h; simp [validAST, hl, hr]

/-- A successful parse over valid tokens yields a valid AST, and the remaining
tokens are still valid. -/
lemma parseRun_valid : ∀ (f : Nat) (mode : PMode) (ts : List String) (a : AST)
    (rest : List String), (∀ t ∈ ts, validToken t = true) →
    (∀ mp left, mode = .loop mp left → validAST left = true) →
    parseRun f mode ts = some (a, rest) →
    validAST a = true ∧ ∀ t ∈ rest, validToken t = true := by
  intro f
  induction f with
  | zero => intro mode ts a rest _ _ h; exact absurd h (by simp [parseRun])
  | succ f ih =>
    intro mode ts a rest hts hmode h
    cases mode with
    | atom =>
      cases ts with
      | nil => exact absurd h (by simp [parseRun])
      | cons t rest₀ =>
        have hts₀ : ∀ u ∈ rest₀, validToken u = true := fun u hu => hts u (by simp [hu])
        simp only [parseRun] at h
        by_cases h1 : t = "("
        · rw [if_pos h1] at h
          cases he : parseRun f (.expr 0) rest₀ with
          | none => rw [he] at h; exact absurd h (by simp)
          | some pr =>
            obtain ⟨e, r2⟩ := pr
            rw [he] at h
            cases r2 with
            | nil => exact absurd h (by simp)
            | cons u r3 =>
              by_cases hu : u = ")"
              · subst hu
                have h' : some (e, r3) = some (a, rest) := h
                simp only [Option.some.injEq, Prod.mk.injEq] at h'
                obtain ⟨rfl, rfl⟩ := h'
                have hv := ih (.expr 0) rest₀ e (")" :: r3) hts₀
                  (fun _ _ he' => nomatch he') he
                exact ⟨hv.1, fun u hu => hv.2 u (by simp [hu])⟩
              · exact absurd h (by simp [hu])
        · rw [if_neg h1] at h
          by_cases h2 : t = "!"
          · rw [if_pos h2] at h
            cases he : parseRun f .atom rest₀ with
            | none => rw [he] at h; exact absurd h (by simp)
            | some pr =>
              obtain ⟨e, r2⟩ := pr
              rw [he] at h
              simp only [Option.some.injEq, Prod.mk.injEq] at h
              obtain ⟨rfl, rfl⟩ := h
              have hv := ih .atom rest₀ e r2 hts₀ (fun _ _ he' => nomatch he') he
              exact ⟨hv.1, hv.2⟩
          · rw [if_neg h2] at h
            by_cases h3 : headIsLetter t = true
            · rw [if_pos h3] at h
              simp only [Option.some.injEq, Prod.mk.injEq] at h
              obtain ⟨rfl, rfl⟩ := h
              have htok : validToken t = true := hts t (by simp)
              have hname : validName t = true := by
                simp only [validToken, Bool.or_eq_true] at htok
                rcases htok with hsp | hnm
                · exfalso
                  simp only [specialToken, List.mem_cons, decide_eq_true_eq] at hsp
                  rcases hsp with rfl | rfl | rfl | rfl | rfl | rfl | rfl | hfalse
                  · exact absurd h3 (by decide)
                  · exact absurd h3 (by decide)
                  · exact absurd h3 (by decide)
                  · exact absurd h3 (by decide)
                  · exact absurd h3 (by decide)
                  · exact absurd h3 (by decide)
                  · exact absurd h3 (by decide)
                  · exact absurd hfalse (by simp)
                · exact hnm
              exact ⟨hname, hts₀⟩
            · rw [if_neg h3] at h
              exact absurd h (by simp)
    | expr mp =>
      simp only [parseRun] at h
      cases he : parseRun f .atom ts with
      | none => rw [he] at h; exact absurd h (by simp)
      | some pr =>
        obtain ⟨left, rest₁⟩ := pr
        rw [he] at h
        have h1 := ih .atom ts left rest₁ hts (fun _ _ he' => nomatch he') he
        exact ih (.loop mp left) rest₁ a rest h1.2
          (fun mp' left' he' => by cases he'; exact h1.1) h
    | loop mp left =>
      have hleft : validAST left = true := hmode mp left rfl
      cases ts with
      | nil =>
        simp only [parseRun, Option.some.injEq, Prod.mk.injEq] at h
        obtain ⟨rfl, rfl⟩ := h
        exact ⟨hleft, by simp⟩
      | cons op rest₀ =>
        have hts₀ : ∀ u ∈ rest₀, validToken u = true := fun u hu => hts u (by simp [hu])
        simp only [parseRun] at h
        split at h
        · simp only [Option.some.injEq, Prod.mk.injEq] at h
          obtain ⟨rfl, rfl⟩ := h
          exact ⟨hleft, hts⟩
        · split at h
          · simp only [Option.some.injEq, Prod.mk.injEq] at h
            obtain ⟨rfl, rfl⟩ := h
            exact ⟨hleft, hts⟩
          · split at h
            · split at h
              · rename_i x2 prec hp hlt x1 right rest2 he x0 node hb
                have hr := ih (.expr (prec + if op = "!" then 0 else 1)) rest₀ right rest2
                  hts₀ (fun _ _ he' => nomatch he') he
                exact ih (.loop mp node) rest2 a rest hr.2
                  (fun mp' left' he' => by
                    cases he'
                    exact mkBin_valid hb hleft hr.1) h
              · exact absurd h (by simp)
            · exact absurd h (by simp)

/-- An AST produced by `parseFormula` has well-formed variable names. -/
lemma parseFormula_valid {s : String} {a : AST} (h : parseFormula s = some a) :
    validAST a = true := by
  unfold parseFormula at h
  split at h
  · exact absurd h (by simp)
  · rename_i tokens ht
    split at h
    · rename_i ast hp
      simp only [Option.some.injEq] at h
      subst h
      exact (parseRun_valid (2 * tokens.length + 2) (.expr 0) tokens ast []
        (tokenizeF_valid _ _ tokens ht) (fun _ _ he' => nomatch he') hp).1
    · exact absurd h (by simp)

/-- Parsing the printed form of a well-formed formula gives back the formula. -/
lemma parse_print (a : AST) (hv : validAST a = true) :
    parseFormula (astToText a) = some a := by
  unfold parseFormula
  rw [tokenize_print a hv]
  have h0 : parseRun (2 * (toks a).length + 1) .atom (toks a ++ []) = some (a, []) :=
    parse_toks a _ [] hv (by omega)
  rw [List.append_nil] at h0
  have h1 : parseRun (2 * (toks a).length + 2) (.expr 0) (toks a) =
      parseRun (2 * (toks a).length + 1) (.loop 0 a) [] :=
    parseRun_expr_step (2 * (toks a).length + 1) 0 (toks a) a [] h0
  show (match parseRun (2 * (toks a).length + 2) (.expr 0) (toks a) with
    | some (ast, []) => some ast
    | _ => none) = some a
  rw [h1, parseRun_loop_nil (2 * (toks a).length) 0 a]

/-- Tokenizing `A -> B -> C` (printed subformulas joined by the implication
operator) yields the three token blocks separated by `->` tokens. -/
lemma tokenize_chain (A B C : AST) (hA : validAST A = true) (hB : validAST B = true)
    (hC : validAST C = true) :
    tokenize (astToText A ++ " -> " ++ astToText B ++ " -> " ++ astToText C) =
      some (toks A ++ "->" :: (toks B ++ "->" :: toks C)) := by
  unfold tokenize
  have hdata : (astToText A ++ " -> " ++ astToText B ++ " -> " ++ astToText C).data =
      (astToText A).data ++ (' ' :: '-' :: '>' :: ' ' ::
        ((astToText B).data ++ (' ' :: '-' :: '>' :: ' ' :: (astToText C).data))) := by
    simp [str_data_append]
  have hC0 : tokenizeL ((astToText C).data) =
      (fun ts => toks C ++ ts) <$> tokenizeL [] := by
    have := print_tokens C [] hC rfl
    rwa [List.append_nil] at this
  rw [hdata,
    print_tokens A (' ' :: '-' :: '>' :: ' ' ::
      ((astToText B).data ++ (' ' :: '-' :: '>' :: ' ' :: (astToText C).data))) hA rfl,
    tokenizeL_space, tokenizeL_arrow, tokenizeL_space,
    print_tokens B (' ' :: '-' :: '>' :: ' ' :: (astToText C).data) hB rfl,
    tokenizeL_space, tokenizeL_arrow, tokenizeL_space, hC0, tokenizeL_nil]
  simp

/-- Parsing `A -> B -> C` produces the left-associated
`Implies(Implies(A,B),C)`: the right-hand recursive call of the loop uses
minimum precedence `prec + 1`, so the second `->` stops that call and is
instead consumed by the outer loop. -/
lemma parse_chain (A B C : AST) (hA : validAST A = true) (hB : validAST B = true)
    (hC : validAST C = true) :
    parseFormula (astToText A ++ " -> " ++ astToText B ++ " -> " ++ astToText C) =
      some (AST.imp (AST.imp A B) C) := by
  unfold parseFormula
  rw [tokenize_chain A B C hA hB hC]
  have hLA := toks_len_pos A
  have hLB := toks_len_pos B
  have hLC := toks_len_pos C
  have hlen : (toks A ++ "->" :: (toks B ++ "->" :: toks C)).length =
      (toks A).length + (toks B).length + (toks C).length + 2 := by
    simp
    omega
  show (match parseRun (2 * (toks A ++ "->" :: (toks B ++ "->" :: toks C)).length + 2)
      (.expr 0) (toks A ++ "->" :: (toks B ++ "->" :: toks C)) with
    | some (ast, []) => some ast
    | _ => none) = some (AST.imp (AST.imp A B) C)
  rw [hlen]
  obtain ⟨m, hm⟩ : ∃ m,
      2 * ((toks A).length + (toks B).length + (toks C).length + 2) + 2 = m + 4 :=
    ⟨2 * ((toks A).length + (toks B).length + (toks C).length) + 2, by omega⟩
  rw [hm]
  have hatomB : parseRun (m + 1) .atom (toks B ++ ("->" :: toks C)) =
      some (B, "->" :: toks C) := parse_toks B (m + 1) ("->" :: toks C) hB (by omega)
  have hexprB : parseRun (m + 2) (.expr 2) (toks B ++ ("->" :: toks C)) =
      some (B, "->" :: toks C) := by
    rw [parseRun_expr_step (m + 1) 2 _ B _ hatomB]
    exact parseRun_loop_lt m 2 B "->" (toks C) 1 rfl (by omega)
  have hatomC : parseRun m .atom (toks C ++ []) = some (C, []) :=
    parse_toks C m [] hC (by omega)
  rw [List.append_nil] at hatomC
  have hexprC : parseRun (m + 1) (.expr 2) (toks C) = some (C, []) :=
    parseRun_expr_of_atom m 2 (toks C) C [] hatomC (Or.inl rfl) (by omega)
  have hstep1 : parseRun (m + 3) (.loop 0 A) ("->" :: (toks B ++ "->" :: toks C)) =
      parseRun (m + 2) (.loop 0 (AST.imp A B)) ("->" :: toks C) :=
    parseRun_loop_op (m + 2) 0 A "->" (toks B ++ "->" :: toks C) 1 rfl (by omega)
      B ("->" :: toks C) hexprB (AST.imp A B) rfl
  have hstep2 : parseRun (m + 2) (.loop 0 (AST.imp A B)) ("->" :: toks C) =
      parseRun (m + 1) (.loop 0 (AST.imp (AST.imp A B) C)) [] :=
    parseRun_loop_op (m + 1) 0 (AST.imp A B) "->" (toks C) 1 rfl (by omega)
      C [] hexprC (AST.imp (AST.imp A B) C) rfl
  have hatomA : parseRun (m + 3) .atom (toks A ++ ("->" :: (toks B ++ "->" :: toks C))) =
      some (A, "->" :: (toks B ++ "->" :: toks C)) :=
    parse_toks A (m + 3) ("->" :: (toks B ++ "->" :: toks C)) hA (by omega)
  rw [parseRun_expr_step (m + 3) 0 _ A _ hatomA, hstep1, hstep2,
    parseRun_loop_nil m 0 (AST.imp (AST.imp A B) C)]

/-! ## Generator lemmas -/

lemma dedupKey_sublist (l : List AST) : ∀ seen, (dedupKey l seen).Sublist l := by
  induction l with
  | nil => intro seen; simp [dedupKey]
  | cons n ns ih =>
    intro seen
    simp only [dedupKey]
    by_cases h : key n ∈ seen
    · rw [if_pos h]
      exact (ih seen).trans (List.sublist_cons_self n ns)
    · rw [if_neg h]
      exact (ih (key n :: seen)).cons₂ n

lemma dedupKey_complete (l : List AST) : ∀ (seen : List String) (f : AST), f ∈ l →
    key f ∈ seen ∨ ∃ g ∈ dedupKey l seen, key g = key f := by
  induction l with
  | nil => intro seen f hf; exact absurd hf (by simp)
  | cons n ns ih =>
    intro seen f hf
    by_cases h : key n ∈ seen
    · rcases List.mem_cons.mp hf with rfl | hf'
      · exact Or.inl h
      · rcases ih seen f hf' with hs | ⟨g, hg, he⟩
        · exact Or.inl hs
        · exact Or.inr ⟨g, by simp only [dedupKey, if_pos h]; exact hg, he⟩
    · rcases List.mem_cons.mp hf with rfl | hf'
      · exact Or.inr ⟨f, by simp [dedupKey, if_neg h], rfl⟩
      · rcases ih (key n :: seen) f hf' with hs | ⟨g, hg, he⟩
        · rcases List.mem_cons.mp hs with he' | hs'
          · exact Or.inr ⟨n, by simp [dedupKey, if_neg h], he'.symm⟩
          · exact Or.inl hs'
        · exact Or.inr ⟨g, by
            simp only [dedupKey, if_neg h]
            exact List.mem_cons_of_mem _ hg, he⟩

lemma dedupKey_not_seen (l : List AST) : ∀ (seen : List String) (g : AST),
    g ∈ dedupKey l seen → key g ∉ seen := by
  induction l with
  | nil => intro seen g hg; exact absurd hg (by simp [dedupKey])
  | cons n ns ih =>
    intro seen g hg
    simp only [dedupKey] at hg
    by_cases h : key n ∈ seen
    · rw [if_pos h] at hg
      exact ih seen g hg
    · rw [if_neg h] at hg
      rcases List.mem_cons.mp hg with rfl | hg'
      · exact h
      · intro hs
        exact ih (key n :: seen) g hg' (List.mem_cons_of_mem _ hs)

lemma dedupKey_pairwise (l : List AST) : ∀ seen : List String,
    (dedupKey l seen).Pairwise (fun a b => key a ≠ key b) := by
  induction l with
  | nil => intro seen; simp [dedupKey]
  | cons n ns ih =>
    intro seen
    simp only [dedupKey]
    by_cases h : key n ∈ seen
    · rw [if_pos h]; exact ih seen
    · rw [if_neg h]
      refine List.pairwise_cons.mpr ⟨?_, ih _⟩
      intro g hg he
      exact dedupKey_not_seen ns (key n :: seen) g hg (by simp [he])

/-- The generator's candidate list never holds two formulas with the same
canonical key. -/
lemma genFormulas_pairwise (d : Nat) (atoms : List String) :
    (genFormulas d atoms).Pairwise (fun a b => key a ≠ key b) :=
  dedupKey_pairwise _ []

/-- Everything produced at a layer `d ≤ maxDepth` appears in the candidate
list, up to canonical key. -/
lemma genFormulas_complete (maxDepth : Nat) (atoms : List String) (d : Nat)
    (hd : d ≤ maxDepth) (f : AST) (hf : f ∈ build atoms d) :
    ∃ g ∈ genFormulas maxDepth atoms, key g = key f := by
  have hmem : f ∈ (List.range (maxDepth + 1)).flatMap (build atoms) :=
    List.mem_flatMap.mpr ⟨d, by simp only [List.mem_range]; omega, hf⟩
  rcases dedupKey_complete _ [] f hmem with hs | h
  · exact absurd hs (by simp)
  · exact h

/-- Everything in the candidate list comes from some layer `d ≤ maxDepth`. -/
lemma genFormulas_sound (maxDepth : Nat) (atoms : List String) (g : AST)
    (hg : g ∈ genFormulas maxDepth atoms) : ∃ d ≤ maxDepth, g ∈ build atoms d := by
  have hmem : g ∈ (List.range (maxDepth + 1)).flatMap (build atoms) :=
    (dedupKey_sublist _ []).subset hg
  rcases List.mem_flatMap.mp hmem with ⟨d, hd, hgd⟩
  exact ⟨d, by simp only [List.mem_range] at hd; omega, hgd⟩

lemma build_nil : ∀ d : Nat, build [] d = [] := by
  intro d
  induction d with
  | zero => rfl
  | succ d ih => simp [build, ih]

/-! ## Sorting and record-dedup lemmas for the generate pipeline -/

lemma dedupFormula_sublist (l : List GenRec) : ∀ seen, (dedupFormula l seen).Sublist l := by
  induction l with
  | nil => intro seen; simp [dedupFormula]
  | cons n ns ih =>
    intro seen
    simp only [dedupFormula]
    by_cases h : n.formula ∈ seen
    · rw [if_pos h]
      exact (ih seen).trans (List.sublist_cons_self n ns)
    · rw [if_neg h]
      exact (ih (n.formula :: seen)).cons₂ n

lemma dedupFormula_not_seen (l : List GenRec) : ∀ (seen : List String) (g : GenRec),
    g ∈ dedupFormula l seen → g.formula ∉ seen := by
  induction l with
  | nil => intro seen g hg; exact absurd hg (by simp [dedupFormula])
  | cons n ns ih =>
    intro seen g hg
    simp only [dedupFormula] at hg
    by_cases h : n.formula ∈ seen
    · rw [if_pos h] at hg
      exact ih seen g hg
    · rw [if_neg h] at hg
      rcases List.mem_cons.mp hg with rfl | hg'
      · exact h
      · intro hs
        exact ih (n.formula :: seen) g hg' (List.mem_cons_of_mem _ hs)

lemma dedupFormula_pairwise (l : List GenRec) : ∀ seen : List String,
    (dedupFormula l seen).Pairwise (fun a b => a.formula ≠ b.formula) := by
  induction l with
  | nil => intro seen; simp [dedupFormula]
  | cons n ns ih =>
    intro seen
    simp only [dedupFormula]
    by_cases h : n.formula ∈ seen
    · rw [if_pos h]; exact ih seen
    · rw [if_neg h]
      refine List.pairwise_cons.mpr ⟨?_, ih _⟩
      intro g hg he
      exact dedupFormula_not_seen ns (n.formula :: seen) g hg (by simp [he])

lemma insertByLen_perm (r : GenRec) (l : List GenRec) :
    (insertByLen r l).Perm (r :: l) := by
  induction l with
  | nil => simp [insertByLen]
  | cons s ss ih =>
    simp only [insertByLen]
    by_cases h : s.formula.length < r.formula.length
    · rw [if_pos h]
      exact (ih.cons s).trans (List.Perm.swap r s ss)
    · rw [if_neg h]

lemma sortByLen_perm (l : List GenRec) : (sortByLen l).Perm l := by
  induction l with
  | nil => simp [sortByLen]
  | cons r rs ih =>
    simp only [sortByLen]
    exact (insertByLen_perm r (sortByLen rs)).trans (ih.cons r)

lemma insertByLen_sorted (r : GenRec) (l : List GenRec)
    (h : l.Pairwise (fun a b => a.formula.length ≤ b.formula.length)) :
    (insertByLen r l).Pairwise (fun a b => a.formula.length ≤ b.formula.length) := by
  induction l with
  | nil => simp [insertByLen]
  | cons s ss ih =>
    rcases List.pairwise_cons.mp h with ⟨hs, hss⟩
    simp only [insertByLen]
    by_cases hlt : s.formula.length < r.formula.length
    · rw [if_pos hlt]
      refine List.pairwise_cons.mpr ⟨?_, ih hss⟩
      intro b hb
      have hb2 : b ∈ r :: ss := (insertByLen_perm r ss).mem_iff.mp hb
      rcases List.mem_cons.mp hb2 with rfl | hb'
      · omega
      · exact hs b hb'
    · rw [if_neg hlt]
      refine List.pairwise_cons.mpr ⟨?_, h⟩
      intro b hb
      rcases List.mem_cons.mp hb with rfl | hb'
      · omega
      · have := hs b hb'
        omega

lemma sortByLen_sorted (l : List GenRec) :
    (sortByLen l).Pairwise (fun a b => a.formula.length ≤ b.formula.length) := by
  induction l with
  | nil => simp [sortByLen]
  | cons r rs ih => exact insertByLen_sorted r (sortByLen rs) ih

/-! ## Layout lemmas -/

lemma size_pos (a : AST) : 1 ≤ size a := by
  induction a <;> simp [size] <;> omega

lemma info_var (n : String) (nfo : NodeInfo) : info (.var n nfo) = nfo := rfl

lemma info_not (v : Placed) (nfo : NodeInfo) : info (.not v nfo) = nfo := rfl

lemma info_and (l r : Placed) (nfo : NodeInfo) : info (.and l r nfo) = nfo := rfl

lemma info_or (l r : Placed) (nfo : NodeInfo) : info (.or l r nfo) = nfo := rfl

lemma info_imp (l r : Placed) (nfo : NodeInfo) : info (.imp l r nfo) = nfo := rfl

lemma info_iff (l r : Placed) (nfo : NodeInfo) : info (.iff l r nfo) = nfo := rfl

/-- The positioned tree is a parallel copy of the input: erasing the
annotations gives back the argument unchanged. -/
lemma place_strip (a : AST) : ∀ (x0 x1 : Rat) (d i : Nat),
    strip (place a x0 x1 d i).1 = a := by
  induction a with
  | var n => intro x0 x1 d i; rfl
  | not v ih => intro x0 x1 d i; simp [place, strip, ih]
  | and l r ihl ihr => intro x0 x1 d i; simp [place, strip, ihl, ihr]
  | or l r ihl ihr => intro x0 x1 d i; simp [place, strip, ihl, ihr]
  | imp l r ihl ihr => intro x0 x1 d i; simp [place, strip, ihl, ihr]
  | iff l r ihl ihr => intro x0 x1 d i; simp [place, strip, ihl, ihr]

/-- The id counter advances by exactly the number of nodes placed. -/
lemma place_ctr (a : AST) : ∀ (x0 x1 : Rat) (d i : Nat),
    (place a x0 x1 d i).2 = i + nodeCount a := by
  induction a with
  | var n => intro x0 x1 d i; simp [place, nodeCount]
  | not v ih =>
    intro x0 x1 d i
    simp only [place, nodeCount, ih]
    omega
  | and l r ihl ihr =>
    intro x0 x1 d i
    simp only [place, nodeCount, ihl, ihr]
    omega
  | or l r ihl ihr =>
    intro x0 x1 d i
    simp only [place, nodeCount, ihl, ihr]
    omega
  | imp l r ihl ihr =>
    intro x0 x1 d i
    simp only [place, nodeCount, ihl, ihr]
    omega
  | iff l r ihl ihr =>
    intro x0 x1 d i
    simp only [place, nodeCount, ihl, ihr]
    omega

lemma range'_merge (i m n : Nat) :
    i :: (List.range' (i + 1) m ++ List.range' (i + 1 + m) n) = List.range' i (m + n + 1) := by
  have happ := List.range'_append (i + 1) m n 1
  rw [one_mul] at happ
  rw [happ, show m + n + 1 = (n + m) + 1 by omega]
  rfl

/-- The ids of a placed subtree read off in pre-order are consecutive,
starting at the value of the id counter when the subtree was entered. -/
lemma place_ids (a : AST) : ∀ (x0 x1 : Rat) (d i : Nat),
    (allNodes (place a x0 x1 d i).1).map (fun q => (info q).id) =
      List.range' i (nodeCount a) := by
  induction a with
  | var n =>
    intro x0 x1 d i
    simp [place, allNodes, info_var, nodeCount]
  | not v ih =>
    intro x0 x1 d i
    simp only [place, allNodes, info_not, nodeCount, List.map_cons, ih]
    rfl
  | and l r ihl ihr =>
    intro x0 x1 d i
    simp only [place, allNodes, info_and, nodeCount, List.map_cons, List.map_append,
      ihl, ihr, place_ctr]
    rw [range'_merge i (nodeCount l) (nodeCount r)]
  | or l r ihl ihr =>
    intro x0 x1 d i
    simp only [place, allNodes, info_or, nodeCount, List.map_cons, List.map_append,
      ihl, ihr, place_ctr]
    rw [range'_merge i (nodeCount l) (nodeCount r)]
  | imp l r ihl ihr =>
    intro x0 x1 d i
    simp only [place, allNodes, info_imp, nodeCount, List.map_cons, List.map_append,
      ihl, ihr, place_ctr]
    rw [range'_merge i (nodeCount l) (nodeCount r)]
  | iff l r ihl ihr =>
    intro x0 x1 d i
    simp only [place, allNodes, info_iff, nodeCount, List.map_cons, List.map_append,
      ihl, ihr, place_ctr]
    rw [range'_merge i (nodeCount l) (nodeCount r)]

lemma mid_between {A B x0 x1 : Rat} (hA : 0 < A) (hB : 0 < B) (h : x0 < x1) :
    x0 < x0 + A / (A + B) * (x1 - x0) ∧ x0 + A / (A + B) * (x1 - x0) < x1 := by
  have hAB : (0:Rat) < A + B := by linarith
  constructor
  · have hpos : 0 < A / (A + B) * (x1 - x0) :=
      mul_pos (div_pos hA hAB) (sub_pos.mpr h)
    linarith
  · have hkey : x1 - (x0 + A / (A + B) * (x1 - x0)) = B / (A + B) * (x1 - x0) := by
      field_simp
      ring
    have hpos : 0 < B / (A + B) * (x1 - x0) :=
      mul_pos (div_pos hB hAB) (sub_pos.mpr h)
    linarith

lemma span_scale {w A B ss M x0 x1 : Rat} (hA : 0 < A) (hB : 0 < B)
    (hM : M = x0 + A / (A + B) * (x1 - x0))
    (hw : w * A = (M - x0) * ss) : w * (A + B) = (x1 - x0) * ss := by
  have hAB : A + B ≠ 0 := by positivity
  have hkey : (M - x0) * (A + B) = (x1 - x0) * A := by
    rw [hM]
    field_simp
    ring
  apply mul_left_cancel₀ (ne_of_gt hA)
  calc A * (w * (A + B)) = (w * A) * (A + B) := by ring
    _ = ((M - x0) * ss) * (A + B) := by rw [hw]
    _ = ((M - x0) * (A + B)) * ss := by ring
    _ = ((x1 - x0) * A) * ss := by rw [hkey]
    _ = A * ((x1 - x0) * ss) := by ring

lemma span_scale_right {w A B ss M x0 x1 : Rat} (hA : 0 < A) (hB : 0 < B)
    (hM : M = x0 + A / (A + B) * (x1 - x0))
    (hw : w * B = (x1 - M) * ss) : w * (A + B) = (x1 - x0) * ss := by
  have hAB : A + B ≠ 0 := by positivity
  have hkey : (x1 - M) * (A + B) = (x1 - x0) * B := by
    rw [hM]
    field_simp
    ring
  apply mul_left_cancel₀ (ne_of_gt hB)
  calc B * (w * (A + B)) = (w * B) * (A + B) := by ring
    _ = ((x1 - M) * ss) * (A + B) := by rw [hw]
    _ = ((x1 - M) * (A + B)) * ss := by ring
    _ = ((x1 - x0) * B) * ss := by rw [hkey]
    _ = B * ((x1 - x0) * ss) := by ring

/-- Core span invariant of `place`: the root of a placed subtree carries
exactly the span it was given, every node's span is nondegenerate, every
node's span width is the assigned width scaled by its leaf-count share, and
the span of a binary node is split at the leaf-count-proportional point
between its children, which abut. -/
lemma place_span (a : AST) : ∀ (x0 x1 : Rat) (d i : Nat), x0 < x1 →
    (info (place a x0 x1 d i).1).x0 = x0 ∧ (info (place a x0 x1 d i).1).x1 = x1 ∧
    ∀ p ∈ allNodes (place a x0 x1 d i).1,
      (info p).x0 < (info p).x1 ∧
      ((info p).x1 - (info p).x0) * (size a : Rat) =
        (x1 - x0) * (size (strip p) : Rat) ∧
      ∀ l r, binChildren p = some (l, r) →
        (info l).x0 = (info p).x0 ∧ (info r).x1 = (info p).x1 ∧
        (info l).x1 = (info p).x0 + ((info p).x1 - (info p).x0) *
          ((size (strip l) : Rat) / ((size (strip l) : Rat) + (size (strip r) : Rat))) ∧
        (info r).x0 = (info l).x1 := by
  induction a with
  | var n =>
    intro x0 x1 d i h
    refine ⟨rfl, rfl, ?_⟩
    intro p hp
    simp only [place, allNodes, List.mem_cons, List.not_mem_nil, or_false] at hp
    subst hp
    refine ⟨h, by simp [info_var, strip, size], ?_⟩
    intro l' r' hlr
    exact absurd hlr (by simp [binChildren])
  | not v ih =>
    intro x0 x1 d i h
    obtain ⟨ih0, ih1, ihP⟩ := ih x0 x1 (d + 1) (i + 1) h
    refine ⟨rfl, rfl, ?_⟩
    intro p hp
    simp only [place, allNodes, List.mem_cons] at hp
    rcases hp with rfl | hp
    · refine ⟨h, by simp [info_not, strip, place_strip, size], ?_⟩
      intro l' r' hlr
      exact absurd hlr (by simp [binChildren])
    · obtain ⟨hlt, hw, hbin⟩ := ihP p hp
      exact ⟨hlt, by simpa [size] using hw, hbin⟩
  | and l r ihl ihr =>
    intro x0 x1 d i h
    have hA : (0:Rat) < (size l : Rat) := by
      have h1 : (1:Rat) ≤ (size l : Rat) := by exact_mod_cast size_pos l
      linarith
    have hB : (0:Rat) < (size r : Rat) := by
      have h1 : (1:Rat) ≤ (size r : Rat) := by exact_mod_cast size_pos r
      linarith
    obtain ⟨hx0M, hMx1⟩ := mid_between hA hB h
    simp only [place]
    set M := x0 + (size l : Rat) / ((size l : Rat) + (size r : Rat)) * (x1 - x0) with hM
    obtain ⟨ihl0, ihl1, ihlP⟩ := ihl x0 M (d + 1) (i + 1) hx0M
    obtain ⟨ihr0, ihr1, ihrP⟩ :=
      ihr M x1 (d + 1) (place l x0 M (d + 1) (i + 1)).2 hMx1
    refine ⟨by simp [info_and], by simp [info_and], ?_⟩
    intro p hp
    simp only [allNodes, List.mem_cons, List.mem_append] at hp
    rcases hp with rfl | hp | hp
    · refine ⟨by simpa [info_and] using h, ?_, ?_⟩
      · simp only [info_and, strip, place_strip, size]
      · intro l' r' hlr
        simp only [binChildren, Option.some.injEq, Prod.mk.injEq] at hlr
        obtain ⟨rfl, rfl⟩ := hlr
        refine ⟨by simpa [info_and] using ihl0, by simpa [info_and] using ihr1, ?_, ?_⟩
        · simp only [info_and]
          rw [ihl1, place_strip l, place_strip r, hM]
          ring
        · rw [ihr0, ihl1]
    · obtain ⟨hlt, hw, hbin⟩ := ihlP p hp
      refine ⟨hlt, ?_, hbin⟩
      simp only [size]
      push_cast
      exact span_scale hA hB hM hw
    · obtain ⟨hlt, hw, hbin⟩ := ihrP p hp
      refine ⟨hlt, ?_, hbin⟩
      simp only [size]
      push_cast
      exact span_scale_right hA hB hM hw
  | or l r ihl ihr =>
    intro x0 x1 d i h
    have hA : (0:Rat) < (size l : Rat) := by
      have h1 : (1:Rat) ≤ (size l : Rat) := by exact_mod_cast size_pos l
      linarith
    have hB : (0:Rat) < (size r : Rat) := by
      have h1 : (1:Rat) ≤ (size r : Rat) := by exact_mod_cast size_pos r
      linarith
    obtain ⟨hx0M, hMx1⟩ := mid_between hA hB h
    simp only [place]
    set M := x0 + (size l : Rat) / ((size l : Rat) + (size r : Rat)) * (x1 - x0) with hM
    obtain ⟨ihl0, ihl1, ihlP⟩ := ihl x0 M (d + 1) (i + 1) hx0M
    obtain ⟨ihr0, ihr1, ihrP⟩ :=
      ihr M x1 (d + 1) (place l x0 M (d + 1) (i + 1)).2 hMx1
    refine ⟨by simp [info_or], by simp [info_or], ?_⟩
    intro p hp
    simp only [allNodes, List.mem_cons, List.mem_append] at hp
    rcases hp with rfl | hp | hp
    · refine ⟨by simpa [info_or] using h, ?_, ?_⟩
      · simp only [info_or, strip, place_strip, size]
      · intro l' r' hlr
        simp only [binChildren, Option.some.injEq, Prod.mk.injEq] at hlr
        obtain ⟨rfl, rfl⟩ := hlr
        refine ⟨by simpa [info_or] using ihl0, by simpa [info_or] using ihr1, ?_, ?_⟩
        · simp only [info_or]
          rw [ihl1, place_strip l, place_strip r, hM]
          ring
        · rw [ihr0, ihl1]
    · obtain ⟨hlt, hw, hbin⟩ := ihlP p hp
      refine ⟨hlt, ?_, hbin⟩
      simp only [size]
      push_cast
      exact span_scale hA hB hM hw
    · obtain ⟨hlt, hw, hbin⟩ := ihrP p hp
      refine ⟨hlt, ?_, hbin⟩
      simp only [size]
      push_cast
      exact span_scale_right hA hB hM hw
  | imp l r ihl ihr =>
    intro x0 x1 d i h
    have hA : (0:Rat) < (size l : Rat) := by
      have h1 : (1:Rat) ≤ (size l : Rat) := by exact_mod_cast size_pos l
      linarith
    have hB : (0:Rat) < (size r : Rat) := by
      have h1 : (1:Rat) ≤ (size r : Rat) := by exact_mod_cast size_pos r
      linarith
    obtain ⟨hx0M, hMx1⟩ := mid_between hA hB h
    simp only [place]
    set M := x0 + (size l : Rat) / ((size l : Rat) + (size r : Rat)) * (x1 - x0) with hM
    obtain ⟨ihl0, ihl1, ihlP⟩ := ihl x0 M (d + 1) (i + 1) hx0M
    obtain ⟨ihr0, ihr1, ihrP⟩ :=
      ihr M x1 (d + 1) (place l x0 M (d + 1) (i + 1)).2 hMx1
    refine ⟨by simp [info_imp], by simp [info_imp], ?_⟩
    intro p hp
    simp only [allNodes, List.mem_cons, List.mem_append] at hp
    rcases hp with rfl | hp | hp
    · refine ⟨by simpa [info_imp] using h, ?_, ?_⟩
      · simp only [info_imp, strip, place_strip, size]
      · intro l' r' hlr
        simp only [binChildren, Option.some.injEq, Prod.mk.injEq] at hlr
        obtain ⟨rfl, rfl⟩ := hlr
        refine ⟨by simpa [info_imp] using ihl0, by simpa [info_imp] using ihr1, ?_, ?_⟩
        · simp only [info_imp]
          rw [ihl1, place_strip l, place_strip r, hM]
          ring
        · rw [ihr0, ihl1]
    · obtain ⟨hlt, hw, hbin⟩ := ihlP p hp
      refine ⟨hlt, ?_, hbin⟩
      simp only [size]
      push_cast
      exact span_scale hA hB hM hw
    · obtain ⟨hlt, hw, hbin⟩ := ihrP p hp
      refine ⟨hlt, ?_, hbin⟩
      simp only [size]
      push_cast
      exact span_scale_right hA hB hM hw
  | iff l r ihl ihr =>
    intro x0 x1 d i h
    have hA : (0:Rat) < (size l : Rat) := by
      have h1 : (1:Rat) ≤ (size l : Rat) := by exact_mod_cast size_pos l
      linarith
    have hB : (0:Rat) < (size r : Rat) := by
      have h1 : (1:Rat) ≤ (size r : Rat) := by exact_mod_cast size_pos r
      linarith
    obtain ⟨hx0M, hMx1⟩ := mid_between hA hB h
    simp only [place]
    set M := x0 + (size l : Rat) / ((size l : Rat) + (size r : Rat)) * (x1 - x0) with hM
    obtain ⟨ihl0, ihl1, ihlP⟩ := ihl x0 M (d + 1) (i + 1) hx0M
    obtain ⟨ihr0, ihr1, ihrP⟩ :=
      ihr M x1 (d + 1) (place l x0 M (d + 1) (i + 1)).2 hMx1
    refine ⟨by simp [info_iff], by simp [info_iff], ?_⟩
    intro p hp
    simp only [allNodes, List.mem_cons, List.mem_append] at hp
    rcases hp with rfl | hp | hp
    · refine ⟨by simpa [info_iff] using h, ?_, ?_⟩
      · simp only [info_iff, strip, place_strip, size]
      · intro l' r' hlr
        simp only [binChildren, Option.some.injEq, Prod.mk.injEq] at hlr
        obtain ⟨rfl, rfl⟩ := hlr
        refine ⟨by simpa [info_iff] using ihl0, by simpa [info_iff] using ihr1, ?_, ?_⟩
        · simp only [info_iff]
          rw [ihl1, place_strip l, place_strip r, hM]
          ring
        · rw [ihr0, ihl1]
    · obtain ⟨hlt, hw, hbin⟩ := ihlP p hp
      refine ⟨hlt, ?_, hbin⟩
      simp only [size]
      push_cast
      exact span_scale hA hB hM hw
    · obtain ⟨hlt, hw, hbin⟩ := ihrP p hp
      refine ⟨hlt, ?_, hbin⟩
      simp only [size]
      push_cast
      exact span_scale_right hA hB hM hw

/-! ## Lemmas about the generate pipeline -/

lemma genRecOf_some {a : AST} {x : GenRec} (h : genRecOf a = some x) :
    x.ast = a ∧ x.formula = astToText a ∧ x.pretty = astToText a ∧
    (collectVarsRaw a).length ≠ 0 ∧ (isTautology a).tautology = true := by
  unfold genRecOf at h
  split_ifs at h with hz ht
  simp only [Option.some.injEq] at h
  subst h
  exact ⟨rfl, rfl, rfl, hz, ht⟩

lemma doGenerate_mem {depth : Nat} {atoms : List String} {r : GenRec}
    (h : r ∈ doGenerate depth atoms) :
    r.ast ∈ genFormulas depth atoms ∧ (isTautology r.ast).tautology = true ∧
    (collectVarsRaw r.ast).length ≠ 0 ∧ r.formula = astToText r.ast ∧
    r.pretty = r.formula := by
  simp only [doGenerate] at h
  have h2 := (List.take_sublist 64 _).subset h
  have h3 := (sortByLen_perm _).mem_iff.mp h2
  have h4 := (dedupFormula_sublist _ []).subset h3
  rcases List.mem_filterMap.mp h4 with ⟨ast, hcand, hr⟩
  obtain ⟨ha, hf, hp, hz, ht⟩ := genRecOf_some hr
  subst ha
  exact ⟨hcand, ht, hz, hf, by rw [hp, hf]⟩

lemma doGenerate_pairwise (depth : Nat) (atoms : List String) :
    (doGenerate depth atoms).Pairwise
      (fun r s => key r.ast ≠ key s.ast ∧ r.formula ≠ s.formula) := by
  have hkey : ((genFormulas depth atoms).filterMap genRecOf).Pairwise
      (fun r s => key r.ast ≠ key s.ast) := by
    rw [List.pairwise_filterMap]
    refine (genFormulas_pairwise depth atoms).imp ?_
    intro a b hne x hx y hy
    have hxa := (genRecOf_some (Option.mem_def.mp hx)).1
    have hyb := (genRecOf_some (Option.mem_def.mp hy)).1
    rw [hxa, hyb]
    exact hne
  have hkey2 := List.Pairwise.sublist (dedupFormula_sublist _ []) hkey
  have hform := dedupFormula_pairwise ((genFormulas depth atoms).filterMap genRecOf) []
  have hboth := hkey2.and hform
  have hsymm : ∀ {x y : GenRec},
      (key x.ast ≠ key y.ast ∧ x.formula ≠ y.formula) →
      (key y.ast ≠ key x.ast ∧ y.formula ≠ x.formula) :=
    fun hxy => ⟨hxy.1.symm, hxy.2.symm⟩
  have hsorted := ((sortByLen_perm
    (dedupFormula ((genFormulas depth atoms).filterMap genRecOf) [])).pairwise_iff
      hsymm).mpr hboth
  simp only [doGenerate]
  exact List.Pairwise.sublist (List.take_sublist 64 _) hsorted

lemma doGenerate_sorted (depth : Nat) (atoms : List String) :
    (doGenerate depth atoms).Pairwise
      (fun r s => r.formula.length ≤ s.formula.length) := by
  simp only [doGenerate]
  exact List.Pairwise.sublist (List.take_sublist 64 _) (sortByLen_sorted _)

lemma doGenerate_len (depth : Nat) (atoms : List String) :
    (doGenerate depth atoms).length ≤ 64 := by
  simp only [doGenerate]
  simp [List.length_take]

lemma root_mem_allNodes (p : Placed) : p ∈ allNodes p := by
  cases p <;> simp [allNodes]

/-! ## Claim theorems -/

set_option maxRecDepth 100000 in
/-- Claim C1, counterexample: parsing `"A -> B -> C"` yields the
left-associated `Implies(Implies(A,B),C)`, which differs from the
right-associated `Implies(A,Implies(B,C))` the claim asserts. -/
theorem C1_counterexample :
    parseFormula "A -> B -> C" =
      some (AST.imp (AST.imp (AST.var "A") (AST.var "B")) (AST.var "C")) ∧
    some (AST.imp (AST.imp (AST.var "A") (AST.var "B")) (AST.var "C")) ≠
      some (AST.imp (AST.var "A") (AST.imp (AST.var "B") (AST.var "C"))) := by
  exact ⟨by decide, by decide⟩

/-- Claim C1, amended: for all well-formed formulas `A`, `B`, `C`, parsing
`A -> B -> C` (the printed operands joined by `->`) yields the
left-associated `Implies(Implies(A,B),C)`: binary operators chain
left-associatively at equal precedence, because the right-hand recursive call
of the parser loop uses minimum precedence `prec + 1`, which makes the
recursion stop at the next operator of equal precedence. -/
theorem C1_left_assoc (A B C : AST) (hA : validAST A = true) (hB : validAST B = true)
    (hC : validAST C = true) :
    parseFormula (astToText A ++ " -> " ++ astToText B ++ " -> " ++ astToText C) =
      some (AST.imp (AST.imp A B) C) :=
  parse_chain A B C hA hB hC

/-- Claim C1, witness: the instance `A -> B -> C` on variables. -/
theorem C1_left_assoc_witness :
    parseFormula (astToText (AST.var "A") ++ " -> " ++ astToText (AST.var "B") ++ " -> " ++
        astToText (AST.var "C")) =
      some (AST.imp (AST.imp (AST.var "A") (AST.var "B")) (AST.var "C")) :=
  C1_left_assoc (AST.var "A") (AST.var "B") (AST.var "C") (by decide) (by decide) (by decide)

set_option maxRecDepth 1000000 in
/-- Claim C2, counterexample: `P ∧ ¬P` has structural depth 2 over the atom
set `["P"]`, yet it is not in the candidate list of `genFormulas 2 ["P"]` —
not even up to canonical key — because layer 2 builds binary nodes only from
two layer-1 operands, never mixing layers. -/
theorem C2_counterexample :
    depthOf (AST.and (AST.var "P") (AST.not (AST.var "P"))) = 2 ∧
    (AST.and (AST.var "P") (AST.not (AST.var "P"))) ∉ genFormulas 2 ["P"] ∧
    ∀ g ∈ genFormulas 2 ["P"],
      key g ≠ key (AST.and (AST.var "P") (AST.not (AST.var "P"))) := by
  exact ⟨by decide, by decide, by decide⟩

/-- Claim C2, amended: the candidate set built by `genFormulas` contains,
up to canonical key, exactly the formulas of the layered sets `build d` for
`d ≤ maxDepth`, where layer 0 holds the atoms and layer `d` applies `Not` to
every layer-`(d-1)` formula and every one of the four binary connectives to
every ordered pair of layer-`(d-1)` formulas (not every formula of structural
depth at most `maxDepth`: both operands come from the same single layer). -/
theorem C2_layered (maxDepth : Nat) (atoms : List String) :
    (∀ d ≤ maxDepth, ∀ f ∈ build atoms d,
      ∃ g ∈ genFormulas maxDepth atoms, key g = key f) ∧
    (∀ g ∈ genFormulas maxDepth atoms, ∃ d ≤ maxDepth, g ∈ build atoms d) :=
  ⟨fun d hd f hf => genFormulas_complete maxDepth atoms d hd f hf,
   fun g hg => genFormulas_sound maxDepth atoms g hg⟩

/-- Claim C2, witness: `¬P` is a layer-1 formula and is found in the
candidate list of `genFormulas 1 ["P"]`. -/
theorem C2_layered_witness :
    ∃ g ∈ genFormulas 1 ["P"], key g = key (AST.not (AST.var "P")) :=
  (C2_layered 1 ["P"]).1 1 (by decide) (AST.not (AST.var "P")) (by decide)

set_option maxRecDepth 1000000 in
/-- Claim C3, code bug: on a conjunction of 31 distinct variables the checker
enumerates `0` assignments instead of `2^31`, because the JavaScript shift
`1 << 31` is the negative 32-bit value `-2^31`, so the enumeration loop never
runs; `isTautology` then reports `tautology = true` with an empty falsifying
list although the all-false assignment falsifies the formula. -/
theorem C3_overflow :
    (varsOf bigConj).length = 31 ∧
    (allAssignments (varsOf bigConj)).length = 0 ∧
    (2:Nat) ^ 31 ≠ 0 ∧
    (isTautology bigConj).tautology = true ∧
    (isTautology bigConj).falsifying = [] ∧
    evalAST bigConj [] = false := by
  exact ⟨by decide, by decide, by decide, by decide, by decide, by decide⟩

/-- Claim C4: for every AST produced by `parseFormula`, reparsing its printed
form (Unicode glyphs, fully parenthesized) succeeds and returns a
structurally identical AST. -/
theorem C4_roundtrip (s : String) (a : AST) (h : parseFormula s = some a) :
    parseFormula (astToText a) = some a :=
  parse_print a (parseFormula_valid h)

set_option maxRecDepth 100000 in
/-- Claim C4, witness: round trip through `P → Q`. -/
theorem C4_roundtrip_witness :
    parseFormula (astToText (AST.imp (AST.var "P") (AST.var "Q"))) =
      some (AST.imp (AST.var "P") (AST.var "Q")) :=
  C4_roundtrip "P -> Q" (AST.imp (AST.var "P") (AST.var "Q")) (by decide)

/-- Claim C5: every record in the ranked output of the generator is a
tautology whose AST has at least one free variable; no two records share a
canonical key or a printed form; the output is sorted ascending by printed
length and has at most 64 records. -/
theorem C5_generate (depth : Nat) (atoms : List String) :
    (∀ r ∈ doGenerate depth atoms,
      (isTautology r.ast).tautology = true ∧ (collectVarsRaw r.ast).length ≠ 0 ∧
      r.formula = astToText r.ast ∧ r.pretty = r.formula) ∧
    (doGenerate depth atoms).Pairwise
      (fun r s => key r.ast ≠ key s.ast ∧ r.formula ≠ s.formula) ∧
    (doGenerate depth atoms).Pairwise
      (fun r s => r.formula.length ≤ s.formula.length) ∧
    (doGenerate depth atoms).length ≤ 64 :=
  ⟨fun _ hr => ⟨(doGenerate_mem hr).2.1, (doGenerate_mem hr).2.2.1,
      (doGenerate_mem hr).2.2.2.1, (doGenerate_mem hr).2.2.2.2⟩,
   doGenerate_pairwise depth atoms, doGenerate_sorted depth atoms,
   doGenerate_len depth atoms⟩

set_option maxRecDepth 1000000 in
/-- Claim C5, witness: `generate(1, ["P"])` contains the record for `P → P`,
a tautology, and respects the 64-record bound. -/
theorem C5_generate_witness :
    (isTautology (AST.imp (AST.var "P") (AST.var "P"))).tautology = true ∧
    (doGenerate 1 ["P"]).length ≤ 64 :=
  ⟨((C5_generate 1 ["P"]).1
      ⟨"(P → P)", "(P → P)", AST.imp (AST.var "P") (AST.var "P")⟩ (by decide)).1,
   (C5_generate 1 ["P"]).2.2.2⟩

/-- Claim C6: in the positioned tree of `layoutAST`, every node's span width
is proportional to its leaf count (scaled by the root width
`max(size·80, 320) − 80`); every span is nondegenerate; every binary node
splits its span `[x0,x1]` at `x0 + (x1−x0)·leafCount(left)/leafCount(node)`,
giving the left child the left part and the right child the remainder, so the
children's spans abut and their interiors are disjoint. -/
theorem C6_layout (a : AST) (p : Placed) (hp : p ∈ allNodes (layoutAST a)) :
    ((info p).x1 - (info p).x0) * (size a : Rat) =
      (max ((size a : Rat) * 80) 320 - 80) * (size (strip p) : Rat) ∧
    (info p).x0 < (info p).x1 ∧
    ∀ l r, binChildren p = some (l, r) →
      (info l).x0 = (info p).x0 ∧ (info r).x1 = (info p).x1 ∧
      (info l).x1 = (info p).x0 + ((info p).x1 - (info p).x0) *
        ((size (strip l) : Rat) / ((size (strip l) : Rat) + (size (strip r) : Rat))) ∧
      (info r).x0 = (info l).x1 ∧
      ∀ t : Rat, ¬((info l).x0 < t ∧ t < (info l).x1 ∧
        (info r).x0 < t ∧ t < (info r).x1) := by
  have hw : (40 : Rat) < max ((size a : Rat) * 80) 320 - 40 := by
    have h320 : (320:Rat) ≤ max ((size a : Rat) * 80) 320 := le_max_right _ _
    linarith
  obtain ⟨h0, h1, hP⟩ := place_span a 40 (max ((size a : Rat) * 80) 320 - 40) 0 0 hw
  have hp' : p ∈ allNodes (place a 40 (max ((size a : Rat) * 80) 320 - 40) 0 0).1 := by
    simpa [layoutAST] using hp
  obtain ⟨hlt, hwid, hbin⟩ := hP p hp'
  have hspan : max ((size a : Rat) * 80) 320 - 40 - 40 =
      max ((size a : Rat) * 80) 320 - 80 := by ring
  rw [hspan] at hwid
  refine ⟨hwid, hlt, ?_⟩
  intro l r hlr
  obtain ⟨hl0, hr1, hsplit, habut⟩ := hbin l r hlr
  refine ⟨hl0, hr1, hsplit, habut, ?_⟩
  intro t ht
  obtain ⟨_, ht1, ht2, _⟩ := ht
  rw [habut] at ht2
  exact absurd (ht2.trans ht1) (lt_irrefl _)

/-- Claim C6, witness: the root of the layout of `P ∧ Q` has a nondegenerate
span. -/
theorem C6_layout_witness :
    (info (layoutAST (AST.and (AST.var "P") (AST.var "Q")))).x0 <
      (info (layoutAST (AST.and (AST.var "P") (AST.var "Q")))).x1 :=
  (C6_layout (AST.and (AST.var "P") (AST.var "Q")) _
    (root_mem_allNodes _)).2.1

set_option maxRecDepth 100000 in
/-- Claim C7: `parseFormula` reports a parse error (modelled as `none`, with
no partial AST) on empty input, on a missing closing parenthesis, on an
unexpected token where an expression is required, on trailing tokens after a
complete expression, and on input ending where an expression is required. -/
theorem C7_parse_errors :
    parseFormula "" = none ∧ parseFormula "(P & Q" = none ∧
    parseFormula ")" = none ∧ parseFormula "P Q" = none ∧
    parseFormula "P &" = none := by
  exact ⟨by decide, by decide, by decide, by decide, by decide⟩

/-- Claim C8: `layoutAST` produces a freshly built parallel copy — erasing
the annotations returns the input AST unchanged (so the input is not
modified, the embedding being pure) — and the integer ids are assigned in
pre-order: read off in pre-order they are exactly `0, 1, …, nodeCount−1`. -/
theorem C8_layout_pure (a : AST) :
    strip (layoutAST a) = a ∧
    (allNodes (layoutAST a)).map (fun q => (info q).id) =
      List.range (nodeCount a) := by
  constructor
  · simpa [layoutAST] using
      place_strip a 40 (max ((size a : Rat) * 80) 320 - 40) 0 0
  · rw [List.range_eq_range']
    simpa [layoutAST] using
      place_ids a 40 (max ((size a : Rat) * 80) 320 - 40) 0 0

/-- Claim C9: `evalAST` is a total function — on every AST and every
(possibly partial) environment it returns a boolean — and a variable whose
name is not bound in the environment evaluates to `false` rather than
failing. -/
theorem C9_eval_total :
    (∀ (a : AST) (env : Env), evalAST a env = true ∨ evalAST a env = false) ∧
    (∀ (env : Env) (n : String), (∀ p ∈ env, p.1 ≠ n) →
      evalAST (AST.var n) env = false) := by
  constructor
  · intro a env
    cases h : evalAST a env
    · exact Or.inr rfl
    · exact Or.inl rfl
  · intro env n h
    have hf : env.find? (fun p => p.1 == n) = none :=
      List.find?_eq_none.mpr (fun p hp => by simp [h p hp])
    simp [evalAST, lookupEnv, hf]

/-- Claim C9, witness: an unbound variable reads as `false`. -/
theorem C9_eval_total_witness : evalAST (AST.var "P") [("Q", true)] = false :=
  C9_eval_total.2 [("Q", true)] "P" (by decide)

/-- Claim C10: calling the generator with an empty atom list returns the
empty candidate list without error, for every depth. -/
theorem C10_empty_atoms (d : Nat) : genFormulas d [] = [] := by
  unfold genFormulas
  have h : ∀ l : List Nat, l.flatMap (build []) = [] := by
    intro l
    induction l with
    | nil => rfl
    | cons x xs ih => simp [List.flatMap_cons, build_nil, ih]
  rw [h]
  rfl

end ETG
